import Mathlib

/-!
# ReverseList: a singly linked list with in-place reversal

Shallow embedding of `src/main.cpp` (`TForwardList<T>`).

The nodes live in an explicit heap: a `std::shared_ptr<TNode>` is an
`Option Nat` (`none` is the null pointer, `some a` the node at address `a`),
and `std::make_shared` returns the next unused address.  Aliasing between
`Root`, `Last` and the `Next` links is therefore kept as in the source.
Nodes are never removed from the heap: releasing a node is not observable
through the list interface.

`assert` is modelled as enabled (the driver in `main` relies on it).
`size_t` is taken to be 64 bits wide and its arithmetic wraps.
-/

namespace ReverseList

/-- Number of values of `size_t` (64-bit): `Length` arithmetic is modulo this. -/
def SIZE_MOD : Nat := 2 ^ 64

/-- Node of the list: `struct TNode { shared_ptr<TNode> Next; const T Value; }`. -/
structure TNode (T : Type) where
  Next : Option Nat
  Value : T
deriving DecidableEq

/-- The heap of nodes; the address of a node is its index. -/
abbrev Heap (T : Type) := List (TNode T)

/-- How a call ends: it returns (`done`, with the state of the object and the
returned value), an `assert` fires (`assertFailed`, with the state of the
object at that point), a null or dangling pointer is dereferenced without an
assertion in front of it (`fault`), or a loop exhausts its fuel (`diverged`). -/
inductive Outcome (σ : Type) (ρ : Type) where
  | done (s : σ) (r : ρ)
  | assertFailed (s : σ)
  | fault
  | diverged
deriving DecidableEq

/-- The data members of `TForwardList<T>` together with the heap its nodes
live in: `Root`, `Last` and `size_t Length`. -/
structure TForwardList (T : Type) where
  heap : Heap T
  Root : Option Nat
  Last : Option Nat
  Length : Nat
deriving DecidableEq

/-- A newly constructed list: `Root` and `Last` null, `Length = 0`, and no
node allocated. -/
def TForwardList.empty (T : Type) : TForwardList T :=
  { heap := [], Root := none, Last := none, Length := 0 }

/-- Method `TNode::Push` of the node at address `self`:
`assert(!Next); Next = std::make_shared<TNode>(value); return Next;`.
The state is the heap, the returned value the address of the new node. -/
def TNode.Push {T : Type} (h : Heap T) (self : Nat) (value : T) : Outcome (Heap T) Nat :=
  match h[self]? with
  | none => .fault
  | some node =>
    if node.Next.isSome then .assertFailed h
    else
      let a := h.length
      let h1 := h ++ [{ Next := none, Value := value }]
      .done (h1.set self { node with Next := some a }) a

/-- Method `TForwardList::PushBack`. -/
def TForwardList.PushBack {T : Type} (s : TForwardList T) (value : T) :
    Outcome (TForwardList T) Unit :=
  match s.Root with
  | none =>
    let a := s.heap.length
    .done { heap := s.heap ++ [{ Next := none, Value := value }],
            Root := some a, Last := some a,
            Length := (s.Length + 1) % SIZE_MOD } ()
  | some _ =>
    match s.Last with
    | none => .fault
    | some l =>
      match TNode.Push s.heap l value with
      | .done h a =>
        .done { heap := h, Root := s.Root, Last := some a,
                Length := (s.Length + 1) % SIZE_MOD } ()
      | .assertFailed _ => .assertFailed s
      | .fault => .fault
      | .diverged => .diverged

/-- Method `TForwardList::PopFront`:
`assert(Root); Root = Root->Next; --Length;`. -/
def TForwardList.PopFront {T : Type} (s : TForwardList T) : Outcome (TForwardList T) Unit :=
  match s.Root with
  | none => .assertFailed s
  | some r =>
    match s.heap[r]? with
    | none => .fault
    | some node =>
      .done { s with Root := node.Next,
                     Length := (s.Length + SIZE_MOD - 1) % SIZE_MOD } ()

/-- Method `TForwardList::Size`. -/
def TForwardList.Size {T : Type} (s : TForwardList T) : Nat := s.Length

/-- The `for (;;)` loop of `TForwardList::Reverse`, with the locals `n` and
`nn`; `Root` is the field of `s`.  One unit of fuel is spent per iteration. -/
def TForwardList.ReverseLoop {T : Type} :
    Nat → TForwardList T → Nat → Option Nat → Outcome (TForwardList T) Unit
  | 0, _, _, _ => .diverged
  | fuel + 1, s, n, nn =>
    -- n->Next = Root;
    match s.heap[n]? with
    | none => .fault
    | some nnode =>
      let h1 := s.heap.set n { nnode with Next := s.Root }
      -- Root = n;
      let s1 := { s with heap := h1, Root := some n }
      -- if (!nn) break;
      match nn with
      | none => .done s1 ()
      | some m =>
        -- n = nn; nn = nn->Next;
        match h1[m]? with
        | none => .fault
        | some mnode => TForwardList.ReverseLoop fuel s1 m mnode.Next

/-- Method `TForwardList::Reverse`. -/
def TForwardList.Reverse {T : Type} (fuel : Nat) (s : TForwardList T) :
    Outcome (TForwardList T) Unit :=
  -- Last = Root;
  let s1 := { s with Last := s.Root }
  -- if (!Root || !Root->Next) return;
  match s1.Root with
  | none => .done s1 ()
  | some r =>
    match s1.heap[r]? with
    | none => .fault
    | some rnode =>
      match rnode.Next with
      | none => .done s1 ()
      | some n =>
        -- auto n = Root->Next; auto nn = n->Next;
        match s1.heap[n]? with
        | none => .fault
        | some nnode =>
          let nn := nnode.Next
          -- Root->Next.reset();
          let h1 := s1.heap.set r { rnode with Next := none }
          TForwardList.ReverseLoop fuel { s1 with heap := h1 } n nn

/-- Class `TIterator`: the cursor `Cur`. -/
structure TIterator where
  Cur : Option Nat
deriving DecidableEq

/-- Method `TForwardList::begin`. -/
def TForwardList.begin {T : Type} (s : TForwardList T) : TIterator := { Cur := s.Root }

/-- Method `TForwardList::end`: a default-constructed iterator. -/
def TForwardList.end_ {T : Type} (_s : TForwardList T) : TIterator := { Cur := none }

/-- The `operator!=` of `TIterator`: `Cur.get() != other.Cur.get()`. -/
def TIterator.ne (a b : TIterator) : Bool := a.Cur != b.Cur

/-- The `operator++` of `TIterator`: `assert(Cur); Cur = Cur->Next;`. -/
def TIterator.incr {T : Type} (h : Heap T) (it : TIterator) : Outcome TIterator Unit :=
  match it.Cur with
  | none => .assertFailed it
  | some a =>
    match h[a]? with
    | none => .fault
    | some node => .done { Cur := node.Next } ()

/-- The `operator*` of `TIterator`: `assert(Cur); return Cur->Value;`. -/
def TIterator.deref {T : Type} (h : Heap T) (it : TIterator) : Outcome TIterator T :=
  match it.Cur with
  | none => .assertFailed it
  | some a =>
    match h[a]? with
    | none => .fault
    | some node => .done it node.Value

/-- The traversal `for (it = first; it != last; ++it) yield *it`, one unit of
fuel per test of the loop condition.  The returned state is the iterator the
loop stops at. -/
def traverse {T : Type} (h : Heap T) (last : TIterator) :
    Nat → TIterator → Outcome TIterator (List T)
  | 0, _ => .diverged
  | fuel + 1, it =>
    if it.ne last then
      match it.deref h with
      | .done _ v =>
        match it.incr h with
        | .done it1 _ =>
          match traverse h last fuel it1 with
          | .done e vs => .done e (v :: vs)
          | .assertFailed e => .assertFailed e
          | .fault => .fault
          | .diverged => .diverged
        | .assertFailed e => .assertFailed e
        | .fault => .fault
        | .diverged => .diverged
      | .assertFailed e => .assertFailed e
      | .fault => .fault
      | .diverged => .diverged
    else .done it []

/-- Iteration over a list, from `begin()` until the iterator is no longer
`!= end()`. -/
def TForwardList.iterate {T : Type} (fuel : Nat) (s : TForwardList T) :
    Outcome TIterator (List T) :=
  traverse s.heap s.end_ fuel s.begin

/-- A call of the public interface that changes the list. -/
inductive Op (T : Type) where
  | PushBack (value : T)
  | PopFront
  | Reverse
deriving DecidableEq

/-- One call. -/
def Op.apply {T : Type} (fuel : Nat) : Op T → TForwardList T → Outcome (TForwardList T) Unit
  | .PushBack v, s => s.PushBack v
  | .PopFront, s => s.PopFront
  | .Reverse, s => s.Reverse fuel

/-- A sequence of calls, stopping at the first one that does not return. -/
def run {T : Type} (fuel : Nat) : List (Op T) → TForwardList T → Outcome (TForwardList T) Unit
  | [], s => .done s ()
  | op :: ops, s =>
    match op.apply fuel s with
    | .done s1 _ => run fuel ops s1
    | .assertFailed e => .assertFailed e
    | .fault => .fault
    | .diverged => .diverged

/-- Number of `PushBack` calls in a sequence of calls. -/
def pushCount {T : Type} : List (Op T) → Nat
  | [] => 0
  | .PushBack _ :: ops => pushCount ops + 1
  | .PopFront :: ops => pushCount ops
  | .Reverse :: ops => pushCount ops

/-- Number of `PopFront` calls in a sequence of calls. -/
def popCount {T : Type} : List (Op T) → Nat
  | [] => 0
  | .PushBack _ :: ops => popCount ops
  | .PopFront :: ops => popCount ops + 1
  | .Reverse :: ops => popCount ops

/-- Every `PopFront` of the sequence is made on a non-empty list (`Root` is
not null at the call), as far as the sequence runs. -/
def popsOnNonEmpty {T : Type} (fuel : Nat) : List (Op T) → TForwardList T → Bool
  | [], _ => true
  | op :: ops, s =>
    (match op with
      | .PopFront => s.Root.isSome
      | _ => true) &&
    (match op.apply fuel s with
      | .done s1 _ => popsOnNonEmpty fuel ops s1
      | _ => true)

/-! ## Example states -/

/-- The list after appending 3, 1, 4, 1, 5 to a new list. -/
def example5 : TForwardList Int :=
  { heap := [⟨some 1, 3⟩, ⟨some 2, 1⟩, ⟨some 3, 4⟩, ⟨some 4, 1⟩, ⟨none, 5⟩],
    Root := some 0, Last := some 4, Length := 5 }

/-- The list after appending 3, 1, 4, 1, 5 and reversing. -/
def example5Reversed : TForwardList Int :=
  { heap := [⟨none, 3⟩, ⟨some 0, 1⟩, ⟨some 1, 4⟩, ⟨some 2, 1⟩, ⟨some 3, 5⟩],
    Root := some 4, Last := some 0, Length := 5 }

/-- The list after appending 3, 1, 4, 1, 5, reversing, and removing the
front element. -/
def example5Popped : TForwardList Int :=
  { heap := [⟨none, 3⟩, ⟨some 0, 1⟩, ⟨some 1, 4⟩, ⟨some 2, 1⟩, ⟨some 3, 5⟩],
    Root := some 3, Last := some 0, Length := 4 }

/-- The list `example5Popped` reversed once more (the removed node, at
address 4, keeps its stale link). -/
def example5PoppedReversed : TForwardList Int :=
  { heap := [⟨some 1, 3⟩, ⟨some 2, 1⟩, ⟨some 3, 4⟩, ⟨none, 1⟩, ⟨some 3, 5⟩],
    Root := some 0, Last := some 3, Length := 4 }

/-- The list after appending 7 to a new list. -/
def example1 : TForwardList Int :=
  { heap := [⟨none, 7⟩], Root := some 0, Last := some 0, Length := 1 }

/-- The list after appending 7 to a new list and removing it again: `Last`
still refers to the removed node. -/
def exampleEmptied : TForwardList Int :=
  { heap := [⟨none, 7⟩], Root := none, Last := some 0, Length := 0 }

/-- A sequence of calls in which every `PopFront` meets a non-empty list. -/
def exampleOps : List (Op Int) :=
  [.PushBack 3, .PushBack 1, .PopFront, .Reverse, .PushBack 4, .PopFront]

/-! ## The chain of nodes -/

/-- The `Next` links starting at pointer `p` visit exactly the nodes of `l`
(address and value of each, in order) and then reach the null pointer. -/
def IsChain {T : Type} (h : Heap T) : Option Nat → List (Nat × T) → Prop
  | p, [] => p = none
  | p, c :: rest => p = some c.1 ∧ ∃ nx, h[c.1]? = some ⟨nx, c.2⟩ ∧ IsChain h nx rest

/-- Representation invariant of a list state with chain `l`. -/
structure Inv {T : Type} (s : TForwardList T) (l : List (Nat × T)) : Prop where
  chain : IsChain s.heap s.Root l
  nodup : (l.map Prod.fst).Nodup
  last : l ≠ [] → s.Last = l.getLast?.map Prod.fst
  len : s.Length = l.length % SIZE_MOD

/-- States reachable from the newly constructed list by calls that return. -/
def Reachable {T : Type} (s : TForwardList T) : Prop :=
  ∃ (fuel : Nat) (ops : List (Op T)), run fuel ops (TForwardList.empty T) = .done s ()

/-! ## Instrumented operations and observations -/

/-- The call `operator++` repeated `k` times on an iterator. -/
def TIterator.advance {T : Type} (h : Heap T) : Nat → TIterator → Outcome TIterator Unit
  | 0, it => .done it ()
  | k + 1, it =>
    match it.incr h with
    | .done it1 _ => TIterator.advance h k it1
    | .assertFailed e => .assertFailed e
    | .fault => .fault
    | .diverged => .diverged

/-- The loop of `Reverse` as in `ReverseLoop`, returning in addition the
addresses of the nodes whose `Next` it assigns, in the order of the
assignments (`log` holds those made before). -/
def TForwardList.ReverseLoopLog {T : Type} :
    Nat → TForwardList T → Nat → Option Nat → List Nat → Outcome (TForwardList T) (List Nat)
  | 0, _, _, _, _ => .diverged
  | fuel + 1, s, n, nn, log =>
    match s.heap[n]? with
    | none => .fault
    | some nnode =>
      let h1 := s.heap.set n { nnode with Next := s.Root }
      let s1 := { s with heap := h1, Root := some n }
      match nn with
      | none => .done s1 (log ++ [n])
      | some m =>
        match h1[m]? with
        | none => .fault
        | some mnode => TForwardList.ReverseLoopLog fuel s1 m mnode.Next (log ++ [n])

/-- Method `TForwardList::Reverse` as in `Reverse`, returning in addition the
addresses of the nodes whose `Next` is assigned (`Root->Next.reset()` and
each `n->Next = Root`), in the order of the assignments. -/
def TForwardList.ReverseLog {T : Type} (fuel : Nat) (s : TForwardList T) :
    Outcome (TForwardList T) (List Nat) :=
  let s1 := { s with Last := s.Root }
  match s1.Root with
  | none => .done s1 []
  | some r =>
    match s1.heap[r]? with
    | none => .fault
    | some rnode =>
      match rnode.Next with
      | none => .done s1 []
      | some n =>
        match s1.heap[n]? with
        | none => .fault
        | some nnode =>
          let nn := nnode.Next
          let h1 := s1.heap.set r { rnode with Next := none }
          TForwardList.ReverseLoopLog fuel { s1 with heap := h1 } n nn [r]

/-- Forgets the returned value of a call. -/
def Outcome.forget {σ ρ : Type} : Outcome σ ρ → Outcome σ Unit
  | .done s _ => .done s ()
  | .assertFailed s => .assertFailed s
  | .fault => .fault
  | .diverged => .diverged

/-- Two list states that agree on everything a caller can observe: the heap,
`Root` and `Length` (hence `Size()` and iteration), and also on `Last`
whenever `Root` is not null. -/
def SameUpToStaleLast {T : Type} (s t : TForwardList T) : Prop :=
  s.heap = t.heap ∧ s.Root = t.Root ∧ s.Length = t.Length ∧ (s.Root ≠ none → s.Last = t.Last)

/-- Two runs end the same way, in states that agree up to a stale `Last`. -/
def SameOutcome {T : Type} :
    Outcome (TForwardList T) Unit → Outcome (TForwardList T) Unit → Prop
  | .done s _, .done t _ => SameUpToStaleLast s t
  | .assertFailed s, .assertFailed t => SameUpToStaleLast s t
  | .fault, .fault => True
  | .diverged, .diverged => True
  | _, _ => False

/-- An empty list whose `Last` is null, over the heap of `exampleEmptied`. -/
def exampleEmptiedReset : TForwardList Int :=
  { heap := [⟨none, 7⟩], Root := none, Last := none, Length := 0 }

/-! ## Lemmas on chains -/

theorem IsChain.nil_iff {T : Type} (h : Heap T) (p : Option Nat) :
    IsChain h p ([] : List (Nat × T)) ↔ p = none := Iff.rfl

theorem IsChain.cons_iff {T : Type} (h : Heap T) (p : Option Nat) (c : Nat × T)
    (rest : List (Nat × T)) :
    IsChain h p (c :: rest) ↔
      p = some c.1 ∧ ∃ nx, h[c.1]? = some ⟨nx, c.2⟩ ∧ IsChain h nx rest := Iff.rfl

theorem IsChain.addr_lt {T : Type} {h : Heap T} {p : Option Nat} {l : List (Nat × T)}
    (hc : IsChain h p l) : ∀ c ∈ l, c.1 < h.length := by
  induction l generalizing p with
  | nil => intro c hm; simp at hm
  | cons d rest ih =>
    obtain ⟨_, nx, hget, hrest⟩ := hc
    intro c hm
    rcases List.mem_cons.1 hm with rfl | hm
    · by_contra hge
      rw [List.getElem?_eq_none (by omega)] at hget
      cases hget
    · exact ih hrest c hm

theorem IsChain.unique {T : Type} {h : Heap T} {p : Option Nat} {l1 l2 : List (Nat × T)}
    (h1 : IsChain h p l1) (h2 : IsChain h p l2) : l1 = l2 := by
  induction l1 generalizing p l2 with
  | nil =>
    cases l2 with
    | nil => rfl
    | cons d rest =>
      have hp : p = none := h1
      obtain ⟨hp2, _⟩ := h2
      rw [hp] at hp2; cases hp2
  | cons c rest ih =>
    obtain ⟨hp, nx, hget, hrest⟩ := h1
    cases l2 with
    | nil =>
      have hp2 : p = none := h2
      rw [hp2] at hp; cases hp
    | cons d rest2 =>
      obtain ⟨hp2, nx2, hget2, hrest2⟩ := h2
      rw [hp] at hp2
      have hcd : c.1 = d.1 := Option.some.inj hp2
      rw [← hcd, hget] at hget2
      have hn := Option.some.inj hget2
      have hnx : nx = nx2 := congrArg TNode.Next hn
      have hv : c.2 = d.2 := congrArg TNode.Value hn
      subst hnx
      rw [ih hrest hrest2, Prod.ext hcd hv]

theorem IsChain.frame_set {T : Type} {h : Heap T} {p : Option Nat} {l : List (Nat × T)}
    (hc : IsChain h p l) (a : Nat) (x : TNode T) (ha : a ∉ l.map Prod.fst) :
    IsChain (h.set a x) p l := by
  induction l generalizing p with
  | nil => exact hc
  | cons c rest ih =>
    obtain ⟨hp, nx, hget, hrest⟩ := hc
    simp only [List.map_cons, List.mem_cons, not_or] at ha
    refine ⟨hp, nx, ?_, ih hrest ha.2⟩
    rw [List.getElem?_set_ne ha.1]
    exact hget

theorem IsChain.frame_append {T : Type} {h : Heap T} {p : Option Nat} {l : List (Nat × T)}
    (hc : IsChain h p l) (h2 : Heap T) : IsChain (h ++ h2) p l := by
  induction l generalizing p with
  | nil => exact hc
  | cons c rest ih =>
    obtain ⟨hp, nx, hget, hrest⟩ := hc
    refine ⟨hp, nx, ?_, ih hrest⟩
    have hall : IsChain h p (c :: rest) := ⟨hp, nx, hget, hrest⟩
    have hlt : c.1 < h.length := hall.addr_lt c (List.mem_cons_self _ _)
    rw [List.getElem?_append_left hlt]
    exact hget

theorem IsChain.last_next {T : Type} {h : Heap T} {p : Option Nat} {l : List (Nat × T)}
    {c : Nat × T} (hc : IsChain h p (l ++ [c])) : h[c.1]? = some ⟨none, c.2⟩ := by
  induction l generalizing p with
  | nil =>
    obtain ⟨_, nx, hget, hrest⟩ := hc
    have hnx : nx = none := hrest
    rw [hget, hnx]
  | cons d rest ih =>
    obtain ⟨_, nx, _, hrest⟩ := hc
    exact ih hrest

theorem IsChain.snoc {T : Type} {h : Heap T} {p : Option Nat} {l : List (Nat × T)}
    {c : Nat × T} (hc : IsChain h p (l ++ [c])) (hnd : ((l ++ [c]).map Prod.fst).Nodup)
    (v : T) :
    IsChain ((h ++ [(⟨none, v⟩ : TNode T)]).set c.1 ⟨some h.length, c.2⟩) p
      (l ++ [c, (h.length, v)]) := by
  induction l generalizing p with
  | nil =>
    obtain ⟨hp, nx, hget, hrest⟩ := hc
    have hall : IsChain h p [c] := ⟨hp, nx, hget, hrest⟩
    have hlt : c.1 < h.length := hall.addr_lt c (List.mem_cons_self _ _)
    refine ⟨hp, some h.length, ?_, rfl, none, ?_, rfl⟩
    · rw [List.getElem?_set_self (by simp; omega)]
    · show ((h ++ [(⟨none, v⟩ : TNode T)]).set c.1 _)[h.length]? = _
      rw [List.getElem?_set_ne (by omega), List.getElem?_append_right (le_refl _)]
      simp
  | cons d rest ih =>
    obtain ⟨hp, nx, hget, hrest⟩ := hc
    have hall : IsChain h p (d :: (rest ++ [c])) := ⟨hp, nx, hget, hrest⟩
    have hlt : d.1 < h.length := hall.addr_lt d (List.mem_cons_self _ _)
    simp only [List.cons_append, List.map_cons, List.nodup_cons] at hnd
    refine ⟨hp, nx, ?_, ih hrest hnd.2⟩
    have hne : c.1 ≠ d.1 := by
      intro he
      apply hnd.1
      rw [← he]
      simp
    rw [List.getElem?_set_ne hne, List.getElem?_append_left hlt]
    exact hget

/-! ## Traversal of a chain -/

theorem traverse_chain {T : Type} {h : Heap T} {p : Option Nat} {l : List (Nat × T)}
    (hc : IsChain h p l) (fuel : Nat) (hf : l.length < fuel) :
    traverse h { Cur := none } fuel { Cur := p } = .done { Cur := none } (l.map Prod.snd) := by
  induction l generalizing p fuel with
  | nil =>
    have hp : p = none := hc
    subst hp
    cases fuel with
    | zero => simp at hf
    | succ k => simp [traverse, TIterator.ne]
  | cons c rest ih =>
    obtain ⟨hp, nx, hget, hrest⟩ := hc
    subst hp
    cases fuel with
    | zero => simp at hf
    | succ k =>
      have hk : rest.length < k := by simpa using hf
      simp [traverse, TIterator.ne, TIterator.deref, TIterator.incr, hget, ih hrest k hk]

theorem traverse_chain_inv {T : Type} {h : Heap T} {p : Option Nat} {l : List (Nat × T)}
    (hc : IsChain h p l) (fuel : Nat) (e : TIterator) (xs : List T)
    (ht : traverse h { Cur := none } fuel { Cur := p } = .done e xs) :
    xs = l.map Prod.snd ∧ l.length < fuel := by
  induction l generalizing p fuel xs e with
  | nil =>
    have hp : p = none := hc
    subst hp
    cases fuel with
    | zero => simp [traverse] at ht
    | succ k =>
      simp [traverse, TIterator.ne] at ht
      simp [ht.2]
  | cons c rest ih =>
    obtain ⟨hp, nx, hget, hrest⟩ := hc
    subst hp
    cases fuel with
    | zero => simp [traverse] at ht
    | succ k =>
      simp only [traverse, TIterator.ne, TIterator.deref, TIterator.incr, hget] at ht
      cases hrec : traverse h { Cur := none } k { Cur := nx } with
      | done e2 vs =>
        rw [hrec] at ht
        simp at ht
        obtain ⟨hvs, hk⟩ := ih hrest k e2 vs hrec
        simp [← ht.2, hvs, hk]
      | assertFailed e2 => rw [hrec] at ht; simp at ht
      | fault => rw [hrec] at ht; simp at ht
      | diverged => rw [hrec] at ht; simp at ht

/-! ## The reversal loop -/

theorem Heap.map_value_set {T : Type} (h : Heap T) (n : Nat) (node : TNode T)
    (x : Option Nat) (hget : h[n]? = some node) :
    (h.set n { node with Next := x }).map TNode.Value = h.map TNode.Value := by
  apply List.ext_getElem?
  intro i
  by_cases hi : n = i
  · subst hi
    have hlt : n < h.length := by
      by_contra hge
      rw [List.getElem?_eq_none (by omega)] at hget
      cases hget
    rw [List.map_set, List.getElem?_set_self (by simpa using hlt), List.getElem?_map, hget]
    rfl
  · simp [List.getElem?_set_ne hi]

theorem ReverseLoop_spec {T : Type} (R : List (Nat × T)) :
    ∀ (s : TForwardList T) (n : Nat) (v : T) (nx0 nn : Option Nat) (D : List (Nat × T)),
      IsChain s.heap s.Root D →
      s.heap[n]? = some ⟨nx0, v⟩ →
      IsChain s.heap nn R →
      n ∉ D.map Prod.fst →
      n ∉ R.map Prod.fst →
      (R.map Prod.fst).Nodup →
      (∀ a ∈ R.map Prod.fst, a ∉ D.map Prod.fst) →
      ∃ s1 : TForwardList T,
        IsChain s1.heap s1.Root (R.reverse ++ (n, v) :: D) ∧
        s1.heap.length = s.heap.length ∧
        s1.heap.map TNode.Value = s.heap.map TNode.Value ∧
        s1.Last = s.Last ∧ s1.Length = s.Length ∧
        ∀ fuel, TForwardList.ReverseLoop fuel s n nn =
          if R.length < fuel then .done s1 () else .diverged := by
  induction R with
  | nil =>
    intro s n v nx0 nn D hD hget hR hnD _ _ _
    have hnn : nn = none := hR
    subst hnn
    have hlt : n < s.heap.length := by
      by_contra hge
      rw [List.getElem?_eq_none (by omega)] at hget
      cases hget
    refine ⟨{ s with heap := s.heap.set n ⟨s.Root, v⟩, Root := some n }, ?_, ?_, ?_, rfl, rfl, ?_⟩
    · refine ⟨rfl, s.Root, ?_, hD.frame_set n _ hnD⟩
      exact List.getElem?_set_self hlt
    · simp
    · exact Heap.map_value_set s.heap n ⟨nx0, v⟩ s.Root hget
    · intro fuel
      cases fuel with
      | zero => simp [TForwardList.ReverseLoop]
      | succ k => simp [TForwardList.ReverseLoop, hget]
  | cons c R1 ih =>
    intro s n v nx0 nn D hD hget hR hnD hnR hRnd hdisj
    obtain ⟨hnn, nx, hgetm, hR1⟩ := hR
    simp only [List.map_cons, List.nodup_cons] at hRnd
    subst hnn
    have hlt : n < s.heap.length := by
      by_contra hge
      rw [List.getElem?_eq_none (by omega)] at hget
      cases hget
    simp only [List.map_cons, List.mem_cons, not_or] at hnR
    have hne : n ≠ c.1 := hnR.1
    have hgetm1 : (s.heap.set n ⟨s.Root, v⟩)[c.1]? = some ⟨nx, c.2⟩ := by
      rw [List.getElem?_set_ne hne]; exact hgetm
    have hD1 : IsChain (s.heap.set n ⟨s.Root, v⟩) (some n) ((n, v) :: D) :=
      ⟨rfl, s.Root, List.getElem?_set_self hlt, hD.frame_set n _ hnD⟩
    obtain ⟨s1, hch, hlen, hval, hlast, hcount, hrun⟩ :=
      ih { s with heap := s.heap.set n ⟨s.Root, v⟩, Root := some n } c.1 c.2 nx nx
        ((n, v) :: D) hD1 hgetm1 (hR1.frame_set n _ hnR.2)
        (by
          simp only [List.map_cons, List.mem_cons, not_or]
          exact ⟨fun he => hne he.symm, hdisj c.1 (by simp)⟩)
        hRnd.1 hRnd.2
        (by
          intro a ha
          simp only [List.map_cons, List.mem_cons, not_or]
          refine ⟨?_, hdisj a (by simp only [List.map_cons, List.mem_cons]; exact Or.inr ha)⟩
          intro he
          exact hnR.2 (he ▸ ha))
    refine ⟨s1, ?_, ?_, ?_, hlast, hcount, ?_⟩
    · simpa using hch
    · simpa using hlen
    · rw [hval]
      exact Heap.map_value_set s.heap n ⟨nx0, v⟩ s.Root hget
    · intro fuel
      cases fuel with
      | zero => simp [TForwardList.ReverseLoop]
      | succ k =>
        simp only [TForwardList.ReverseLoop, hget, hgetm1, hrun k]
        simp

/-! ## Specification of the three mutators on the invariant -/

theorem SIZE_MOD_eq : SIZE_MOD = 18446744073709551616 := by
  unfold SIZE_MOD; norm_num

theorem SIZE_MOD_succ (n : Nat) : (n % SIZE_MOD + 1) % SIZE_MOD = (n + 1) % SIZE_MOD := by
  rw [SIZE_MOD_eq]; omega

theorem SIZE_MOD_pred (n : Nat) :
    ((n + 1) % SIZE_MOD + SIZE_MOD - 1) % SIZE_MOD = n % SIZE_MOD := by
  rw [SIZE_MOD_eq]; omega

theorem IsChain.root_eq {T : Type} {h : Heap T} {p : Option Nat} {l : List (Nat × T)}
    (hc : IsChain h p l) : p = l.head?.map Prod.fst := by
  cases l with
  | nil => exact hc
  | cons c rest => exact hc.1

theorem Inv.empty (T : Type) : Inv (TForwardList.empty T) [] :=
  ⟨rfl, List.nodup_nil, fun hne => absurd rfl hne, rfl⟩

theorem PushBack_spec {T : Type} {s : TForwardList T} {l : List (Nat × T)} (hinv : Inv s l)
    (v : T) :
    ∃ s1 : TForwardList T, s.PushBack v = .done s1 () ∧
      Inv s1 (l ++ [(s.heap.length, v)]) ∧
      s1.Last = some s.heap.length ∧
      s1.heap[s.heap.length]? = some ⟨none, v⟩ ∧
      s1.heap.length = s.heap.length + 1 ∧
      s1.Length = (s.Length + 1) % SIZE_MOD ∧
      s1.Root = (if s.Root = none then some s.heap.length else s.Root) := by
  obtain ⟨hch, hnd, hlast, hlen⟩ := hinv
  rcases List.eq_nil_or_concat l with rfl | ⟨init, c, hl⟩
  · have hroot : s.Root = none := hch
    refine ⟨{ heap := s.heap ++ [(⟨none, v⟩ : TNode T)], Root := some s.heap.length,
              Last := some s.heap.length, Length := (s.Length + 1) % SIZE_MOD },
      by simp [TForwardList.PushBack, hroot], ⟨?_, ?_, ?_, ?_⟩, rfl, ?_, ?_, rfl, ?_⟩
    · refine ⟨rfl, none, ?_, rfl⟩
      show (s.heap ++ [(⟨none, v⟩ : TNode T)])[s.heap.length]? = _
      rw [List.getElem?_append_right (le_refl _)]; simp
    · simp
    · intro _; simp
    · show (s.Length + 1) % SIZE_MOD = _
      rw [hlen]; simp [SIZE_MOD_eq]
    · show (s.heap ++ [(⟨none, v⟩ : TNode T)])[s.heap.length]? = _
      rw [List.getElem?_append_right (le_refl _)]; simp
    · simp
    · simp [hroot]
  · rw [List.concat_eq_append] at hl
    subst hl
    have hroot := hch.root_eq
    obtain ⟨r, hr⟩ : ∃ r, s.Root = some r := by
      cases init <;> exact ⟨_, hroot⟩
    have hl : s.Last = some c.1 := by
      rw [hlast (by simp)]; simp
    have hget := hch.last_next
    have hlt : c.1 < s.heap.length := hch.addr_lt c (by simp)
    refine ⟨{ heap := (s.heap ++ [(⟨none, v⟩ : TNode T)]).set c.1 ⟨some s.heap.length, c.2⟩,
              Root := s.Root, Last := some s.heap.length,
              Length := (s.Length + 1) % SIZE_MOD }, ?_, ⟨?_, ?_, ?_, ?_⟩, rfl, ?_, ?_, rfl, ?_⟩
    · simp [TForwardList.PushBack, hr, hl, TNode.Push, hget]
    · have := hch.snoc hnd v
      simpa using this
    · rw [List.map_append, List.nodup_append]
      refine ⟨hnd, by simp, ?_⟩
      intro a ha hb
      simp only [List.map_cons, List.map_nil, List.mem_singleton] at hb
      obtain ⟨d, hd, rfl⟩ := List.mem_map.1 ha
      have := hch.addr_lt d hd
      omega
    · intro _; simp
    · show (s.Length + 1) % SIZE_MOD = _
      rw [hlen, SIZE_MOD_succ]; simp
    · show ((s.heap ++ [(⟨none, v⟩ : TNode T)]).set c.1 _)[s.heap.length]? = _
      rw [List.getElem?_set_ne (by omega), List.getElem?_append_right (le_refl _)]; simp
    · simp
    · simp [hr]

theorem PopFront_spec {T : Type} {s : TForwardList T} {c : Nat × T} {rest : List (Nat × T)}
    (hinv : Inv s (c :: rest)) :
    ∃ nx : Option Nat, s.heap[c.1]? = some ⟨nx, c.2⟩ ∧ s.Root = some c.1 ∧
      s.PopFront = .done { s with Root := nx,
                                  Length := (s.Length + SIZE_MOD - 1) % SIZE_MOD } () ∧
      Inv { s with Root := nx, Length := (s.Length + SIZE_MOD - 1) % SIZE_MOD } rest := by
  obtain ⟨hch, hnd, hlast, hlen⟩ := hinv
  obtain ⟨hroot, nx, hget, hrest⟩ := hch
  refine ⟨nx, hget, hroot, by simp [TForwardList.PopFront, hroot, hget], ⟨hrest, ?_, ?_, ?_⟩⟩
  · simp only [List.map_cons, List.nodup_cons] at hnd
    exact hnd.2
  · intro hne
    show s.Last = _
    rw [hlast (by simp)]
    cases rest with
    | nil => exact absurd rfl hne
    | cons d r2 => simp [List.getLast?_cons_cons]
  · show (s.Length + SIZE_MOD - 1) % SIZE_MOD = _
    rw [hlen, List.length_cons, SIZE_MOD_pred]

theorem Reverse_spec {T : Type} {s : TForwardList T} {l : List (Nat × T)} (hinv : Inv s l) :
    ∃ s1 : TForwardList T,
      Inv s1 l.reverse ∧
      s1.heap.length = s.heap.length ∧
      s1.heap.map TNode.Value = s.heap.map TNode.Value ∧
      s1.Last = s.Root ∧ s1.Length = s.Length ∧
      (l.length ≤ 1 → s1 = { s with Last := s.Root }) ∧
      ∀ fuel, s.Reverse fuel = if l.length ≤ fuel + 1 then .done s1 () else .diverged := by
  obtain ⟨hch, hnd, hlast, hlen⟩ := hinv
  match l, hch, hnd, hlast, hlen with
  | [], hch, hnd, hlast, hlen =>
    have hroot : s.Root = none := hch
    refine ⟨{ s with Last := s.Root }, ⟨hch, hnd, fun hne => absurd rfl hne, hlen⟩,
      rfl, rfl, rfl, rfl, fun _ => rfl, ?_⟩
    intro fuel
    simp [TForwardList.Reverse, hroot]
  | [c], hch, hnd, hlast, hlen =>
    obtain ⟨hroot, nx, hget, hrest⟩ := hch
    have hnx : nx = none := hrest
    subst hnx
    refine ⟨{ s with Last := s.Root }, ⟨⟨hroot, none, hget, rfl⟩, hnd, ?_, hlen⟩,
      rfl, rfl, rfl, rfl, fun _ => rfl, ?_⟩
    · intro _
      show s.Root = _
      rw [hroot]; rfl
    · intro fuel
      simp [TForwardList.Reverse, hroot, hget]
  | c :: d :: R, hch, hnd, hlast, hlen =>
    obtain ⟨hroot, nx, hget, hrest⟩ := hch
    obtain ⟨hnx, nn, hgetd, hR⟩ := hrest
    subst hnx
    simp only [List.map_cons, List.nodup_cons, List.mem_cons, not_or] at hnd
    obtain ⟨⟨hcd, hcR⟩, hdR, hRnd⟩ := hnd
    have hlt : c.1 < s.heap.length := by
      by_contra hge
      rw [List.getElem?_eq_none (by omega)] at hget
      cases hget
    have hgetd1 : (s.heap.set c.1 ⟨none, c.2⟩)[d.1]? = some ⟨nn, d.2⟩ := by
      rw [List.getElem?_set_ne hcd]; exact hgetd
    have hD : IsChain (s.heap.set c.1 ⟨none, c.2⟩) (some c.1) [c] :=
      ⟨rfl, none, List.getElem?_set_self hlt, rfl⟩
    obtain ⟨s1, hch1, hlen1, hval1, hlast1, hcount1, hrun⟩ :=
      ReverseLoop_spec R
        { heap := s.heap.set c.1 ⟨none, c.2⟩, Root := s.Root, Last := s.Root,
          Length := s.Length }
        d.1 d.2 nn nn [c] (by rw [hroot]; exact hD) hgetd1 (hR.frame_set c.1 _ hcR)
        (by simp only [List.map_cons, List.map_nil, List.mem_singleton]
            exact fun he => hcd he.symm)
        hdR hRnd
        (by
          intro a ha
          simp only [List.map_cons, List.map_nil, List.mem_singleton]
          intro he
          exact hcR (he ▸ ha))
    refine ⟨s1, ⟨?_, ?_, ?_, ?_⟩, ?_, ?_, hlast1, hcount1, ?_, ?_⟩
    · simpa using hch1
    · rw [List.map_reverse, List.nodup_reverse]
      simp only [List.map_cons, List.nodup_cons, List.mem_cons, not_or]
      exact ⟨⟨hcd, hcR⟩, hdR, hRnd⟩
    · intro _
      rw [hlast1]
      show s.Root = _
      rw [hroot]
      simp
    · rw [hcount1]
      show s.Length = _
      rw [hlen]; simp
    · simpa using hlen1
    · rw [hval1]
      exact Heap.map_value_set s.heap c.1 ⟨some d.1, c.2⟩ none hget
    · intro hle
      simp at hle
    · intro fuel
      have hrun2 := hrun fuel
      rw [hroot] at hrun2
      simp only [TForwardList.Reverse, hroot, hget, hgetd, List.length_cons]
      rw [hrun2]
      by_cases hf : R.length < fuel
      · rw [if_pos hf, if_pos (by omega)]
      · rw [if_neg hf, if_neg (by omega)]

/-- Every call that returns keeps the invariant, with a chain determined by
the call. -/
theorem Op.apply_inv {T : Type} {s s1 : TForwardList T} {l : List (Nat × T)} (hinv : Inv s l)
    (fuel : Nat) (op : Op T) (hrun : op.apply fuel s = .done s1 ()) :
    ∃ l1, Inv s1 l1 := by
  cases op with
  | PushBack v =>
    obtain ⟨s2, hpush, hinv2, _⟩ := PushBack_spec hinv v
    have : s.PushBack v = .done s1 () := hrun
    rw [hpush] at this
    cases this
    exact ⟨_, hinv2⟩
  | PopFront =>
    have hpop : s.PopFront = .done s1 () := hrun
    cases l with
    | nil =>
      have hroot : s.Root = none := hinv.chain
      simp [TForwardList.PopFront, hroot] at hpop
    | cons c rest =>
      obtain ⟨nx, _, _, hpop2, hinv2⟩ := PopFront_spec hinv
      rw [hpop2] at hpop
      cases hpop
      exact ⟨_, hinv2⟩
  | Reverse =>
    have hrev : s.Reverse fuel = .done s1 () := hrun
    obtain ⟨s2, hinv2, _, _, _, _, _, hrun2⟩ := Reverse_spec hinv
    rw [hrun2 fuel] at hrev
    split at hrev
    · cases hrev; exact ⟨_, hinv2⟩
    · cases hrev

theorem run_inv {T : Type} (fuel : Nat) (ops : List (Op T)) :
    ∀ (s s1 : TForwardList T) (l : List (Nat × T)), Inv s l →
      run fuel ops s = .done s1 () → ∃ l1, Inv s1 l1 := by
  induction ops with
  | nil =>
    intro s s1 l hinv hrun
    simp only [run] at hrun
    cases hrun
    exact ⟨l, hinv⟩
  | cons op ops ih =>
    intro s s1 l hinv hrun
    simp only [run] at hrun
    cases hop : op.apply fuel s with
    | done s2 u =>
      rw [hop] at hrun
      obtain ⟨l2, hinv2⟩ := Op.apply_inv hinv fuel op hop
      exact ih s2 s1 l2 hinv2 hrun
    | assertFailed e => rw [hop] at hrun; cases hrun
    | fault => rw [hop] at hrun; cases hrun
    | diverged => rw [hop] at hrun; cases hrun

theorem Reachable.inv {T : Type} {s : TForwardList T} (hr : Reachable s) : ∃ l, Inv s l := by
  obtain ⟨fuel, ops, hrun⟩ := hr
  exact run_inv fuel ops _ s [] (Inv.empty T) hrun

/-- What iteration yields on a state with the invariant. -/
theorem Inv.iterate {T : Type} {s : TForwardList T} {l : List (Nat × T)} (hinv : Inv s l)
    (fuel : Nat) (hf : l.length < fuel) :
    s.iterate fuel = .done { Cur := none } (l.map Prod.snd) :=
  traverse_chain hinv.chain fuel hf

theorem Inv.iterate_inv {T : Type} {s : TForwardList T} {l : List (Nat × T)} (hinv : Inv s l)
    {fuel : Nat} {e : TIterator} {xs : List T} (ht : s.iterate fuel = .done e xs) :
    xs = l.map Prod.snd :=
  (traverse_chain_inv hinv.chain fuel e xs ht).1

theorem Reachable.chain_of_iterate {T : Type} {s : TForwardList T} (hr : Reachable s)
    {fuel : Nat} {e : TIterator} {xs : List T} (ht : s.iterate fuel = .done e xs) :
    ∃ l, Inv s l ∧ l.map Prod.snd = xs := by
  obtain ⟨l, hinv⟩ := hr.inv
  exact ⟨l, hinv, (hinv.iterate_inv ht).symm⟩

theorem run_pushBack_all {T : Type} (xs : List T) :
    ∀ (s : TForwardList T) (l : List (Nat × T)), Inv s l →
      ∃ (s1 : TForwardList T) (l1 : List (Nat × T)), Inv s1 l1 ∧
        l1.map Prod.snd = l.map Prod.snd ++ xs ∧
        ∀ fuel, run fuel (xs.map Op.PushBack) s = .done s1 () := by
  induction xs with
  | nil =>
    intro s l hinv
    exact ⟨s, l, hinv, by simp, fun _ => rfl⟩
  | cons x xs ih =>
    intro s l hinv
    obtain ⟨s2, hpush, hinv2, _⟩ := PushBack_spec hinv x
    obtain ⟨s1, l1, hinv1, hmap, hrun⟩ := ih s2 _ hinv2
    refine ⟨s1, l1, hinv1, by simpa using hmap, ?_⟩
    intro fuel
    simp only [List.map_cons, run, Op.apply, hpush]
    exact hrun fuel

theorem run_reverse_repeat {T : Type} (k : Nat) :
    ∀ (s : TForwardList T) (l : List (Nat × T)), Inv s l →
      ∃ s1 : TForwardList T, Inv s1 (if k % 2 = 0 then l else l.reverse) ∧
        s1.Length = s.Length ∧
        ∀ fuel, l.length ≤ fuel + 1 →
          run fuel (List.replicate k Op.Reverse) s = .done s1 () := by
  induction k with
  | zero =>
    intro s l hinv
    exact ⟨s, by simpa using hinv, rfl, fun _ _ => rfl⟩
  | succ k ih =>
    intro s l hinv
    obtain ⟨s2, hinv2, _, _, _, hlen2, _, hrun2⟩ := Reverse_spec hinv
    obtain ⟨s1, hinv1, hlen1, hrun1⟩ := ih s2 l.reverse hinv2
    refine ⟨s1, ?_, by rw [hlen1, hlen2], ?_⟩
    · rcases Nat.mod_two_eq_zero_or_one k with hk | hk
      · have hk1 : (k + 1) % 2 = 1 := by omega
        simpa [hk, hk1] using hinv1
      · have hk1 : (k + 1) % 2 = 0 := by omega
        simpa [hk, hk1] using hinv1
    · intro fuel hf
      simp only [List.replicate_succ, run, Op.apply, hrun2 fuel, if_pos hf]
      exact hrun1 fuel (by simpa using hf)

theorem example5_reachable : Reachable example5 :=
  ⟨0, [.PushBack 3, .PushBack 1, .PushBack 4, .PushBack 1, .PushBack 5], rfl⟩

theorem example5Reversed_reachable : Reachable example5Reversed :=
  ⟨4, [.PushBack 3, .PushBack 1, .PushBack 4, .PushBack 1, .PushBack 5, .Reverse], rfl⟩

theorem example1_reachable : Reachable example1 :=
  ⟨0, [.PushBack 7], rfl⟩

theorem exampleEmptied_reachable : Reachable exampleEmptied :=
  ⟨0, [.PushBack 7, .PopFront], rfl⟩

theorem run_size_accounting {T : Type} (fuel : Nat) (ops : List (Op T)) :
    ∀ (s : TForwardList T) (l : List (Nat × T)), Inv s l →
      l.length + pushCount ops ≤ fuel + 1 →
      popsOnNonEmpty fuel ops s = true →
      ∃ (s1 : TForwardList T) (l1 : List (Nat × T)), run fuel ops s = .done s1 () ∧
        Inv s1 l1 ∧ l1.length + popCount ops = l.length + pushCount ops := by
  induction ops with
  | nil =>
    intro s l hinv _ _
    exact ⟨s, l, rfl, hinv, rfl⟩
  | cons op ops ih =>
    intro s l hinv hfuel hg
    cases op with
    | PushBack v =>
      obtain ⟨s2, hpush, hinv2, _⟩ := PushBack_spec hinv v
      simp only [popsOnNonEmpty, Op.apply, hpush, Bool.true_and] at hg
      simp only [pushCount] at hfuel
      obtain ⟨s1, l1, hrun, hinv1, hcnt⟩ :=
        ih s2 _ hinv2 (by simp only [List.length_append, List.length_singleton]; omega) hg
      refine ⟨s1, l1, ?_, hinv1, ?_⟩
      · simp only [run, Op.apply, hpush]; exact hrun
      · simp only [List.length_append, List.length_singleton] at hcnt
        simp only [pushCount, popCount]; omega
    | PopFront =>
      cases l with
      | nil =>
        have hroot : s.Root = none := hinv.chain
        simp [popsOnNonEmpty, hroot] at hg
      | cons c rest =>
        obtain ⟨nx, _, hroot, hpop, hinv2⟩ := PopFront_spec hinv
        simp only [popsOnNonEmpty, Op.apply, hpop, hroot, Option.isSome_some,
          Bool.true_and] at hg
        simp only [pushCount, List.length_cons] at hfuel
        obtain ⟨s1, l1, hrun, hinv1, hcnt⟩ := ih _ rest hinv2 (by omega) hg
        refine ⟨s1, l1, ?_, hinv1, ?_⟩
        · simp only [run, Op.apply, hpop]; exact hrun
        · simp only [pushCount, popCount, List.length_cons]; omega
    | Reverse =>
      obtain ⟨s2, hinv2, _, _, _, _, _, hrev⟩ := Reverse_spec hinv
      simp only [pushCount] at hfuel
      have hrev2 : s.Reverse fuel = .done s2 () := by
        rw [hrev fuel, if_pos (by omega)]
      simp only [popsOnNonEmpty, Op.apply, hrev2, Bool.true_and] at hg
      obtain ⟨s1, l1, hrun, hinv1, hcnt⟩ :=
        ih s2 l.reverse hinv2 (by rw [List.length_reverse]; omega) hg
      refine ⟨s1, l1, ?_, hinv1, ?_⟩
      · simp only [run, Op.apply, hrev2]; exact hrun
      · rw [List.length_reverse] at hcnt
        simp only [pushCount, popCount]; omega

/-! ## The claims -/

/-- C1 (round trip): for every finite sequence `xs`, calling `PushBack` on each
element of `xs` in order on a newly constructed list returns, and iterating the
resulting list from `begin()` until the iterator equals `end()` yields exactly
`xs` (same elements, same order, same number), whenever the traversal is given
more fuel than `xs` has elements. -/
theorem C1_roundtrip_pushBack_iterate {T : Type} (xs : List T) :
    ∃ s : TForwardList T,
      (∀ fuel, run fuel (xs.map Op.PushBack) (TForwardList.empty T) = .done s ()) ∧
      ∀ fuel, xs.length < fuel →
        s.iterate fuel = .done s.end_ xs ∧
        ∀ e ys, s.iterate fuel = .done e ys → ys.length = xs.length := by
  obtain ⟨s, l, hinv, hmap, hrun⟩ := run_pushBack_all xs _ [] (Inv.empty T)
  simp only [List.map_nil, List.nil_append] at hmap
  refine ⟨s, hrun, ?_⟩
  intro fuel hf
  have hlen : l.length = xs.length := by rw [← hmap, List.length_map]
  have hit := hinv.iterate fuel (by omega)
  rw [hmap] at hit
  refine ⟨hit, ?_⟩
  intro e ys hys
  rw [hinv.iterate_inv hys, hmap]

/-- C2 (reversal correctness): in every reachable state, if iteration yields
`xs`, then `Reverse` returns (given fuel for its loop) and iteration afterwards
yields exactly the reverse of `xs`. -/
theorem C2_reverse_yields_reverse {T : Type} (s : TForwardList T) (hr : Reachable s)
    (fuel0 : Nat) (e : TIterator) (xs : List T) (hit : s.iterate fuel0 = .done e xs) :
    ∃ s1 : TForwardList T,
      (∀ fuel, xs.length ≤ fuel + 1 → s.Reverse fuel = .done s1 ()) ∧
      ∀ fuel, xs.length < fuel → s1.iterate fuel = .done s1.end_ xs.reverse := by
  obtain ⟨l, hinv, hmap⟩ := hr.chain_of_iterate hit
  have hlen : l.length = xs.length := by rw [← hmap, List.length_map]
  obtain ⟨s1, hinv1, _, _, _, _, _, hrun⟩ := Reverse_spec hinv
  refine ⟨s1, ?_, ?_⟩
  · intro fuel hf
    rw [hrun fuel, if_pos (by omega)]
  · intro fuel hf
    have := hinv1.iterate fuel (by simpa [hlen] using hf)
    rw [List.map_reverse, hmap] at this
    exact this

/-- C3 (reversal involution): in every reachable state whose iteration yields
`xs`, `k` consecutive calls of `Reverse` return, after them iteration yields
`xs` when `k` is even and the reverse of `xs` when `k` is odd (with `k = 2` the
original order is restored), and `Size()` is the length of `xs` (as a
`size_t`: exactly the length whenever that is below `2 ^ 64`). -/
theorem C3_reverse_repeated {T : Type} (s : TForwardList T) (hr : Reachable s)
    (fuel0 : Nat) (e : TIterator) (xs : List T) (hit : s.iterate fuel0 = .done e xs)
    (k : Nat) :
    ∃ s1 : TForwardList T,
      (∀ fuel, xs.length ≤ fuel + 1 →
        run fuel (List.replicate k Op.Reverse) s = .done s1 ()) ∧
      (∀ fuel, xs.length < fuel →
        s1.iterate fuel = .done s1.end_ (if k % 2 = 0 then xs else xs.reverse)) ∧
      s1.Size = xs.length % SIZE_MOD ∧
      (xs.length < SIZE_MOD → s1.Size = xs.length) := by
  obtain ⟨l, hinv, hmap⟩ := hr.chain_of_iterate hit
  have hlen : l.length = xs.length := by rw [← hmap, List.length_map]
  obtain ⟨s1, hinv1, hcount, hrun⟩ := run_reverse_repeat k s l hinv
  have hS : s1.Size = xs.length % SIZE_MOD := by
    show s1.Length = _
    rw [hcount, hinv.len, hlen]
  refine ⟨s1, ?_, ?_, hS, ?_⟩
  · intro fuel hf
    exact hrun fuel (by omega)
  · intro fuel hf
    have hit1 := hinv1.iterate fuel (by
      split
      · omega
      · rw [List.length_reverse]; omega)
    rw [hit1]
    split
    · rw [hmap]; rfl
    · rw [List.map_reverse, hmap]; rfl
  · intro hsz
    rw [hS, Nat.mod_eq_of_lt hsz]

/-- C4 (append on any state): in every reachable state whose iteration yields
`xs`, `PushBack v` returns; afterwards iteration yields `xs` followed by `v`,
`Last` is the newly allocated node (an address that was not allocated before,
holding `v` and no successor), and the count is one larger (as a `size_t`:
exactly one larger whenever `xs.length + 1` is below `2 ^ 64`); if the list
was empty, `Root` and `Last` both are the new node and the count is 1. -/
theorem C4_pushBack_effect {T : Type} (s : TForwardList T) (hr : Reachable s)
    (fuel0 : Nat) (e : TIterator) (xs : List T) (hit : s.iterate fuel0 = .done e xs)
    (v : T) :
    ∃ s1 : TForwardList T, s.PushBack v = .done s1 () ∧
      (∀ fuel, xs.length + 1 < fuel → s1.iterate fuel = .done s1.end_ (xs ++ [v])) ∧
      s1.Last = some s.heap.length ∧
      s.heap[s.heap.length]? = none ∧
      s1.heap[s.heap.length]? = some ⟨none, v⟩ ∧
      s1.Length = (s.Length + 1) % SIZE_MOD ∧
      (xs.length + 1 < SIZE_MOD → s1.Length = s.Length + 1) ∧
      ((s.Root = none ∨ xs = []) →
        s1.Root = some s.heap.length ∧ s1.Last = s1.Root ∧ s1.Length = 1) := by
  obtain ⟨l, hinv, hmap⟩ := hr.chain_of_iterate hit
  have hlen : l.length = xs.length := by rw [← hmap, List.length_map]
  obtain ⟨s1, hpush, hinv1, hlast, hnew, _, hcount, hroot⟩ := PushBack_spec hinv v
  refine ⟨s1, hpush, ?_, hlast, ?_, hnew, hcount, ?_, ?_⟩
  · intro fuel hf
    have hit1 := hinv1.iterate fuel (by simpa [hlen] using hf)
    rw [hit1, List.map_append, hmap]
    rfl
  · exact List.getElem?_eq_none (le_refl _)
  · intro hsz
    have hL : s.Length = xs.length := by
      rw [hinv.len, hlen, Nat.mod_eq_of_lt (by omega)]
    rw [hcount, hL, Nat.mod_eq_of_lt hsz]
  · intro hempty
    have hnil : l = [] := by
      rcases hempty with h0 | h0
      · cases l with
        | nil => rfl
        | cons c rest =>
          have := hinv.chain.1
          rw [h0] at this
          cases this
      · subst h0
        exact List.length_eq_zero.1 hlen
    subst hnil
    have hr0 : s.Root = none := hinv.chain
    rw [hr0] at hroot
    simp only [if_true] at hroot
    have hL : s.Length = 0 := hinv.len
    refine ⟨hroot, by rw [hlast, hroot], ?_⟩
    rw [hcount, hL, SIZE_MOD_eq]

/-- C5 (PopFront effect): in every reachable state whose iteration yields `x`
followed by `rest`, `PopFront` returns; afterwards `Root` is the `Next` of the
former head node (null if that was the only node), iteration yields exactly
`rest`, and `Size()` is one smaller (as a `size_t`: exactly one smaller
whenever the list held fewer than `2 ^ 64` elements).
Scenario: appending 3, 1, 4, 1, 5, then `Reverse`, then `PopFront` gives
iteration 1, 4, 1, 3 with `Size() = 4`, and a further `Reverse` gives
3, 1, 4, 1. -/
theorem C5_popFront_effect :
    (∀ (T : Type) (s : TForwardList T), Reachable s →
      ∀ (fuel0 : Nat) (e : TIterator) (x : T) (rest : List T),
        s.iterate fuel0 = .done e (x :: rest) →
        ∃ (r : Nat) (node : TNode T) (s1 : TForwardList T),
          s.Root = some r ∧ s.heap[r]? = some node ∧ node.Value = x ∧
          s.PopFront = .done s1 () ∧
          s1.Root = node.Next ∧ (rest = [] → s1.Root = none) ∧
          (∀ fuel, rest.length < fuel → s1.iterate fuel = .done s1.end_ rest) ∧
          s1.Size = (s.Size + SIZE_MOD - 1) % SIZE_MOD ∧
          (rest.length + 1 < SIZE_MOD → s1.Size + 1 = s.Size)) ∧
    (∃ sA sB : TForwardList Int,
      run 4 [.PushBack 3, .PushBack 1, .PushBack 4, .PushBack 1, .PushBack 5, .Reverse,
        .PopFront] (TForwardList.empty Int) = .done sA () ∧
      sA.iterate 5 = .done sA.end_ [1, 4, 1, 3] ∧ sA.Size = 4 ∧
      sA.Reverse 3 = .done sB () ∧
      sB.iterate 5 = .done sB.end_ [3, 1, 4, 1]) := by
  constructor
  · intro T s hr fuel0 e x rest hit
    obtain ⟨l, hinv, hmap⟩ := hr.chain_of_iterate hit
    cases l with
    | nil => simp at hmap
    | cons c l1 =>
      simp only [List.map_cons, List.cons.injEq] at hmap
      obtain ⟨hx, hrest⟩ := hmap
      have hlen : l1.length = rest.length := by rw [← hrest, List.length_map]
      obtain ⟨nx, hget, hroot, hpop, hinv1⟩ := PopFront_spec hinv
      refine ⟨c.1, ⟨nx, c.2⟩, _, hroot, hget, hx, hpop, ?_, ?_, ?_, ?_, ?_⟩
      · rfl
      · intro hnil
        subst hnil
        have : l1 = [] := List.length_eq_zero.1 hlen
        subst this
        exact hinv1.chain
      · intro fuel hf
        have := hinv1.iterate fuel (by omega)
        rw [hrest] at this
        exact this
      · rw [TForwardList.Size, TForwardList.Size]
      · intro hsz
        rw [TForwardList.Size, TForwardList.Size, hinv.len, List.length_cons, SIZE_MOD_pred,
          Nat.mod_eq_of_lt (by omega), Nat.mod_eq_of_lt (by omega)]
  · exact ⟨example5Popped, example5PoppedReversed, rfl, rfl, rfl, rfl, rfl⟩

/-- C7 (PopFront precondition): on every reachable state, `PopFront` stops at
its assertion if and only if `Root` is null; when `Root` is not null it
returns; and when the assertion fires the state at that point is the state
the call started in (`Root`, `Last` and `Length` unmodified). -/
theorem C7_popFront_precondition {T : Type} (s : TForwardList T) (hr : Reachable s) :
    ((∃ e, s.PopFront = .assertFailed e) ↔ s.Root = none) ∧
    (s.Root ≠ none → ∃ s1, s.PopFront = .done s1 ()) ∧
    (∀ e, s.PopFront = .assertFailed e →
      e = s ∧ e.Root = s.Root ∧ e.Last = s.Last ∧ e.Length = s.Length) := by
  obtain ⟨l, hinv⟩ := hr.inv
  cases l with
  | nil =>
    have hroot : s.Root = none := hinv.chain
    refine ⟨⟨fun _ => hroot, fun _ => ⟨s, by simp [TForwardList.PopFront, hroot]⟩⟩,
      fun hne => absurd hroot hne, ?_⟩
    intro e he
    simp only [TForwardList.PopFront, hroot] at he
    cases he
    exact ⟨rfl, rfl, rfl, rfl⟩
  | cons c rest =>
    obtain ⟨nx, hget, hroot, hpop, _⟩ := PopFront_spec hinv
    refine ⟨⟨?_, ?_⟩, fun _ => ⟨_, hpop⟩, ?_⟩
    · rintro ⟨e, he⟩
      rw [hpop] at he
      cases he
    · intro h0
      rw [h0] at hroot
      cases hroot
    · intro e he
      rw [hpop] at he
      cases he

/-- C8 (PushBack has no failure conditions): in every reachable state a call
of `PushBack` returns; in particular, whenever `Root` is not null the cached
`Last` refers to an allocated node whose `Next` is null, so `assert(!Next)` in
`TNode::Push` holds and `Push` on that node returns. -/
theorem C8_pushBack_succeeds {T : Type} (s : TForwardList T) (hr : Reachable s) (v : T) :
    (∃ s1, s.PushBack v = .done s1 ()) ∧
    (s.Root ≠ none →
      ∃ (a : Nat) (node : TNode T), s.Last = some a ∧ s.heap[a]? = some node ∧
        node.Next = none ∧ ∃ h b, TNode.Push s.heap a v = .done h b) := by
  obtain ⟨l, hinv⟩ := hr.inv
  obtain ⟨s1, hpush, _⟩ := PushBack_spec hinv v
  refine ⟨⟨s1, hpush⟩, ?_⟩
  intro hne
  rcases List.eq_nil_or_concat l with hl | ⟨init, c, hl⟩
  · subst hl
    exact absurd hinv.chain hne
  · rw [List.concat_eq_append] at hl
    subst hl
    have hget := hinv.chain.last_next
    refine ⟨c.1, ⟨none, c.2⟩, ?_, hget, rfl, ?_⟩
    · rw [hinv.last (by simp)]; simp
    · simp [TNode.Push, hget]

/-- C6 (size accounting): for every finite sequence of `PushBack`, `PopFront`
and `Reverse` calls on a newly constructed list in which every `PopFront` is
made on a non-empty list (and with fewer than `2 ^ 64` `PushBack` calls, so
that the number of elements is a `size_t`), the sequence runs to its end,
there are never more `PopFront` than `PushBack` calls, and `Size()` afterwards
equals the number of `PushBack` calls minus the number of `PopFront` calls,
as an exact difference of integers: the wrapping counter has not wrapped. -/
theorem C6_size_accounting {T : Type} (ops : List (Op T)) (fuel : Nat)
    (hfuel : pushCount ops ≤ fuel + 1) (hsz : pushCount ops < SIZE_MOD)
    (hpop : popsOnNonEmpty fuel ops (TForwardList.empty T) = true) :
    ∃ s : TForwardList T, run fuel ops (TForwardList.empty T) = .done s () ∧
      popCount ops ≤ pushCount ops ∧
      s.Size = pushCount ops - popCount ops ∧
      (s.Size : Int) = (pushCount ops : Int) - (popCount ops : Int) := by
  obtain ⟨s, l, hrun, hinv, hcnt⟩ :=
    run_size_accounting fuel ops _ [] (Inv.empty T) (by simpa using hfuel) hpop
  simp only [List.length_nil, Nat.zero_add] at hcnt
  have hS : s.Size = l.length := by
    show s.Length = _
    rw [hinv.len, Nat.mod_eq_of_lt (by omega)]
  refine ⟨s, hrun, by omega, by omega, by omega⟩

/-- C9 (Reverse rewrites links only): on every reachable non-empty list, with
chain `l` (addresses and values of the nodes from `Root`), `Reverse` returns;
it allocates no node (the heap keeps its size), the value held at every
address is unchanged, the chain after the call consists of the same nodes in
reverse order, the count is unchanged, the node that was last in the chain
(and cached in `Last`) is `Root` afterwards, and the node that was `Root` is
`Last` afterwards and is last in the new chain. -/
theorem C9_reverse_relinks_only {T : Type} (s : TForwardList T) (hr : Reachable s)
    (hne : s.Root ≠ none) :
    ∃ (l : List (Nat × T)) (s1 : TForwardList T),
      IsChain s.heap s.Root l ∧
      (∀ fuel, l.length ≤ fuel + 1 → s.Reverse fuel = .done s1 ()) ∧
      s1.heap.length = s.heap.length ∧
      (∀ a : Nat, s1.heap[a]?.map TNode.Value = s.heap[a]?.map TNode.Value) ∧
      IsChain s1.heap s1.Root l.reverse ∧
      s1.Length = s.Length ∧ s1.Size = s.Size ∧
      s.Last = l.getLast?.map Prod.fst ∧ s1.Root = s.Last ∧
      s1.Last = s.Root ∧ s1.Last = l.reverse.getLast?.map Prod.fst := by
  obtain ⟨l, hinv⟩ := hr.inv
  obtain ⟨s1, hinv1, hlen, hval, hlast, hcount, _, hrun⟩ := Reverse_spec hinv
  have hl : l ≠ [] := by
    intro h0
    subst h0
    exact hne hinv.chain
  have hroot1 : s1.Root = s.Last := by
    rw [hinv1.chain.root_eq, hinv.last hl, List.head?_reverse]
  have hlast1 : s1.Last = l.reverse.getLast?.map Prod.fst := by
    rw [hlast, hinv.chain.root_eq, List.getLast?_reverse]
  refine ⟨l, s1, hinv.chain, ?_, hlen, ?_, hinv1.chain, hcount, hcount, hinv.last hl,
    hroot1, hlast, hlast1⟩
  · intro fuel hf
    rw [hrun fuel, if_pos hf]
  · intro a
    rw [← List.getElem?_map, ← List.getElem?_map, hval]

/-- C10 (Reverse edge cases): on every reachable state with `Root` null,
`Reverse` returns, `Size()` is 0 before and after, `Root` stays null, no node
is touched and iteration yields nothing; on every reachable state whose
iteration yields exactly one element, `Reverse` returns the very same state
(heap with the node and its `Next`, `Root`, `Last` and `Length` unchanged),
with `Last = Root`. -/
theorem C10_reverse_edge_cases {T : Type} (s : TForwardList T) (hr : Reachable s) :
    (s.Root = none →
      ∃ s1 : TForwardList T, (∀ fuel, s.Reverse fuel = .done s1 ()) ∧
        s.Size = 0 ∧ s1.Size = 0 ∧ s1.Root = none ∧ s1.heap = s.heap ∧
        ∀ fuel, 0 < fuel →
          s.iterate fuel = .done s.end_ [] ∧ s1.iterate fuel = .done s1.end_ []) ∧
    (∀ (fuel0 : Nat) (e : TIterator) (x : T), s.iterate fuel0 = .done e [x] →
      (∀ fuel, s.Reverse fuel = .done s ()) ∧ s.Last = s.Root ∧ s.Root ≠ none ∧
        ∃ a, s.Root = some a ∧ s.heap[a]? = some ⟨none, x⟩) := by
  constructor
  · intro hroot
    obtain ⟨l, hinv⟩ := hr.inv
    have hl : l = [] := by
      cases l with
      | nil => rfl
      | cons c rest =>
        have := hinv.chain.1
        rw [hroot] at this
        cases this
    subst hl
    obtain ⟨s1, hinv1, _, _, _, hcount, hsame, hrun⟩ := Reverse_spec hinv
    have hs1 := hsame (by simp)
    have hS : s.Size = 0 := hinv.len
    refine ⟨s1, ?_, hS, by show s1.Length = 0; rw [hcount]; exact hS, hinv1.chain,
      by rw [hs1], ?_⟩
    · intro fuel
      rw [hrun fuel, if_pos (by simp)]
    · intro fuel hf
      exact ⟨hinv.iterate fuel hf, hinv1.iterate fuel hf⟩
  · intro fuel0 e x hit
    obtain ⟨l, hinv, hmap⟩ := hr.chain_of_iterate hit
    match l, hinv, hmap with
    | [c], hinv, hmap =>
      simp only [List.map_cons, List.map_nil, List.cons.injEq, and_true] at hmap
      obtain ⟨s1, _, _, _, _, _, hsame, hrun⟩ := Reverse_spec hinv
      have hs1 := hsame (by simp)
      obtain ⟨hroot, nx, hget, hrest⟩ := hinv.chain
      have hnx : nx = none := hrest
      subst hnx
      have hlast : s.Last = s.Root := by
        rw [hinv.last (by simp), hroot]; rfl
      have hs : s1 = s := by
        rw [hs1]
        cases s with
        | mk heap Root Last Length =>
          have hlast2 : Last = Root := hlast
          subst hlast2
          rfl
      refine ⟨?_, hlast, by rw [hroot]; simp, c.1, hroot, by rw [hget, hmap]⟩
      intro fuel
      rw [hrun fuel, if_pos (by simp), hs]
    | [], _, hmap => simp at hmap
    | _ :: _ :: _, _, hmap => simp at hmap

/-! ## The claims at concrete inputs -/

theorem C2_reverse_yields_reverse_witness :
    Reachable example5 ∧
    example5.iterate 6 = .done { Cur := none } [3, 1, 4, 1, 5] ∧
    ∃ s1 : TForwardList Int,
      (∀ fuel, 5 ≤ fuel + 1 → example5.Reverse fuel = .done s1 ()) ∧
      ∀ fuel, 5 < fuel → s1.iterate fuel = .done s1.end_ [5, 1, 4, 1, 3] :=
  ⟨example5_reachable, rfl,
    C2_reverse_yields_reverse example5 example5_reachable 6 { Cur := none } [3, 1, 4, 1, 5] rfl⟩

theorem C3_reverse_repeated_witness :
    ∃ s1 : TForwardList Int,
      (∀ fuel, 5 ≤ fuel + 1 →
        run fuel [Op.Reverse, Op.Reverse] example5 = .done s1 ()) ∧
      (∀ fuel, 5 < fuel → s1.iterate fuel = .done s1.end_ [3, 1, 4, 1, 5]) ∧
      s1.Size = 5 % SIZE_MOD ∧ (5 < SIZE_MOD → s1.Size = 5) :=
  C3_reverse_repeated example5 example5_reachable 6 { Cur := none } [3, 1, 4, 1, 5] rfl 2

theorem C4_pushBack_effect_witness :
    ∃ s1 : TForwardList Int, exampleEmptied.PushBack 9 = .done s1 () ∧
      (∀ fuel, 1 < fuel → s1.iterate fuel = .done s1.end_ [9]) ∧
      s1.Last = some 1 ∧
      exampleEmptied.heap[1]? = none ∧
      s1.heap[1]? = some ⟨none, 9⟩ ∧
      s1.Length = (0 + 1) % SIZE_MOD ∧
      (1 < SIZE_MOD → s1.Length = 1) ∧
      ((exampleEmptied.Root = none ∨ ([] : List Int) = []) →
        s1.Root = some 1 ∧ s1.Last = s1.Root ∧ s1.Length = 1) :=
  C4_pushBack_effect exampleEmptied exampleEmptied_reachable 1 { Cur := none } [] rfl 9

theorem C5_popFront_effect_witness :
    ∃ (r : Nat) (node : TNode Int) (s1 : TForwardList Int),
      example5Reversed.Root = some r ∧ example5Reversed.heap[r]? = some node ∧
      node.Value = 5 ∧ example5Reversed.PopFront = .done s1 () ∧
      s1.Root = node.Next ∧ (([1, 4, 1, 3] : List Int) = [] → s1.Root = none) ∧
      (∀ fuel, 4 < fuel → s1.iterate fuel = .done s1.end_ [1, 4, 1, 3]) ∧
      s1.Size = (example5Reversed.Size + SIZE_MOD - 1) % SIZE_MOD ∧
      (4 + 1 < SIZE_MOD → s1.Size + 1 = example5Reversed.Size) :=
  C5_popFront_effect.1 Int example5Reversed example5Reversed_reachable 6 { Cur := none } 5
    [1, 4, 1, 3] rfl

theorem C6_size_accounting_witness :
    pushCount exampleOps = 3 ∧ popCount exampleOps = 2 ∧
    ∃ s : TForwardList Int,
      run 2 exampleOps (TForwardList.empty Int) = .done s () ∧
      popCount exampleOps ≤ pushCount exampleOps ∧
      s.Size = pushCount exampleOps - popCount exampleOps ∧
      (s.Size : Int) = (pushCount exampleOps : Int) - (popCount exampleOps : Int) :=
  ⟨rfl, rfl, C6_size_accounting exampleOps 2 (by decide) (by decide) rfl⟩

theorem C7_popFront_precondition_witness :
    ((∃ e, exampleEmptied.PopFront = .assertFailed e) ↔ exampleEmptied.Root = none) ∧
    (exampleEmptied.Root ≠ none → ∃ s1, exampleEmptied.PopFront = .done s1 ()) ∧
    (∀ e, exampleEmptied.PopFront = .assertFailed e →
      e = exampleEmptied ∧ e.Root = exampleEmptied.Root ∧ e.Last = exampleEmptied.Last ∧
        e.Length = exampleEmptied.Length) :=
  C7_popFront_precondition exampleEmptied exampleEmptied_reachable

theorem C8_pushBack_succeeds_witness :
    (∃ s1, example5Reversed.PushBack 9 = .done s1 ()) ∧
    (example5Reversed.Root ≠ none →
      ∃ (a : Nat) (node : TNode Int), example5Reversed.Last = some a ∧
        example5Reversed.heap[a]? = some node ∧ node.Next = none ∧
        ∃ h b, TNode.Push example5Reversed.heap a 9 = .done h b) :=
  C8_pushBack_succeeds example5Reversed example5Reversed_reachable 9

theorem C9_reverse_relinks_only_witness :
    ∃ (l : List (Nat × Int)) (s1 : TForwardList Int),
      IsChain example5.heap example5.Root l ∧
      (∀ fuel, l.length ≤ fuel + 1 → example5.Reverse fuel = .done s1 ()) ∧
      s1.heap.length = example5.heap.length ∧
      (∀ a : Nat, s1.heap[a]?.map TNode.Value = example5.heap[a]?.map TNode.Value) ∧
      IsChain s1.heap s1.Root l.reverse ∧
      s1.Length = example5.Length ∧ s1.Size = example5.Size ∧
      example5.Last = l.getLast?.map Prod.fst ∧ s1.Root = example5.Last ∧
      s1.Last = example5.Root ∧ s1.Last = l.reverse.getLast?.map Prod.fst :=
  C9_reverse_relinks_only example5 example5_reachable (by decide)

theorem C10_reverse_edge_cases_witness :
    (exampleEmptied.Root = none →
      ∃ s1 : TForwardList Int, (∀ fuel, exampleEmptied.Reverse fuel = .done s1 ()) ∧
        exampleEmptied.Size = 0 ∧ s1.Size = 0 ∧ s1.Root = none ∧
        s1.heap = exampleEmptied.heap ∧
        ∀ fuel, 0 < fuel →
          exampleEmptied.iterate fuel = .done exampleEmptied.end_ [] ∧
          s1.iterate fuel = .done s1.end_ []) ∧
    ((∀ fuel, example1.Reverse fuel = .done example1 ()) ∧ example1.Last = example1.Root ∧
      example1.Root ≠ none ∧
      ∃ a, example1.Root = some a ∧ example1.heap[a]? = some ⟨none, 7⟩) :=
  ⟨(C10_reverse_edge_cases exampleEmptied exampleEmptied_reachable).1,
    (C10_reverse_edge_cases example1 example1_reachable).2 2 { Cur := none } 7 rfl⟩

/-! ## Further lemmas: cached tail, advancing, logged reversal, stale tail -/

theorem Inv.last_next_null_of_ne_nil {T : Type} {s : TForwardList T} {l : List (Nat × T)}
    (hinv : Inv s l) (hl : l ≠ []) :
    ∀ a, s.Last = some a → ∃ v, s.heap[a]? = some ⟨none, v⟩ := by
  intro a ha
  rcases List.eq_nil_or_concat l with h0 | ⟨init, c, h1⟩
  · exact absurd h0 hl
  · rw [List.concat_eq_append] at h1
    subst h1
    have hget := hinv.chain.last_next
    have hlast := hinv.last hl
    rw [ha] at hlast
    simp at hlast
    have hac : a = c.1 := hlast
    rw [hac]
    exact ⟨c.2, hget⟩

/-- Every call that returns keeps: the node `Last` refers to has a null `Next`. -/
theorem Op.apply_last_next_null {T : Type} {s s1 : TForwardList T} {l : List (Nat × T)}
    (hinv : Inv s l) (hs : ∀ a, s.Last = some a → ∃ v, s.heap[a]? = some ⟨none, v⟩)
    (fuel : Nat) (op : Op T) (hrun : op.apply fuel s = .done s1 ()) :
    ∀ a, s1.Last = some a → ∃ v, s1.heap[a]? = some ⟨none, v⟩ := by
  cases op with
  | PushBack v =>
    obtain ⟨s2, hpush, _, hlast, hnew, _⟩ := PushBack_spec hinv v
    have : s.PushBack v = .done s1 () := hrun
    rw [hpush] at this
    cases this
    intro a ha
    rw [hlast] at ha
    cases ha
    exact ⟨v, hnew⟩
  | PopFront =>
    have hpop : s.PopFront = .done s1 () := hrun
    cases l with
    | nil =>
      have hroot : s.Root = none := hinv.chain
      simp [TForwardList.PopFront, hroot] at hpop
    | cons c rest =>
      obtain ⟨nx, _, _, hpop2, _⟩ := PopFront_spec hinv
      rw [hpop2] at hpop
      cases hpop
      exact hs
  | Reverse =>
    have hrev : s.Reverse fuel = .done s1 () := hrun
    obtain ⟨s2, hinv2, _, _, hlast2, _, _, hrun2⟩ := Reverse_spec hinv
    rw [hrun2 fuel] at hrev
    split at hrev
    · cases hrev
      by_cases hl : l = []
      · subst hl
        have hroot : s.Root = none := hinv.chain
        intro a ha
        rw [hlast2, hroot] at ha
        cases ha
      · exact hinv2.last_next_null_of_ne_nil (by simpa using hl)
    · cases hrev

theorem run_last_next_null {T : Type} (fuel : Nat) (ops : List (Op T)) :
    ∀ (s s1 : TForwardList T) (l : List (Nat × T)), Inv s l →
      (∀ a, s.Last = some a → ∃ v, s.heap[a]? = some ⟨none, v⟩) →
      run fuel ops s = .done s1 () →
      ∀ a, s1.Last = some a → ∃ v, s1.heap[a]? = some ⟨none, v⟩ := by
  induction ops with
  | nil =>
    intro s s1 l _ hs hrun
    simp only [run] at hrun
    cases hrun
    exact hs
  | cons op ops ih =>
    intro s s1 l hinv hs hrun
    simp only [run] at hrun
    cases hop : op.apply fuel s with
    | done s2 u =>
      rw [hop] at hrun
      obtain ⟨l2, hinv2⟩ := Op.apply_inv hinv fuel op hop
      exact ih s2 s1 l2 hinv2 (Op.apply_last_next_null hinv hs fuel op hop) hrun
    | assertFailed e => rw [hop] at hrun; cases hrun
    | fault => rw [hop] at hrun; cases hrun
    | diverged => rw [hop] at hrun; cases hrun

theorem Reachable.last_next_null {T : Type} {s : TForwardList T} (hr : Reachable s) :
    ∀ a, s.Last = some a → ∃ v, s.heap[a]? = some ⟨none, v⟩ := by
  obtain ⟨fuel, ops, hrun⟩ := hr
  refine run_last_next_null fuel ops _ s [] (Inv.empty T) ?_ hrun
  intro a ha
  cases ha

theorem advance_chain {T : Type} {h : Heap T} (k : Nat) :
    ∀ (p : Option Nat) (l : List (Nat × T)), IsChain h p l → k ≤ l.length →
      ∃ q, TIterator.advance h k { Cur := p } = .done { Cur := q } () ∧
        IsChain h q (l.drop k) := by
  induction k with
  | zero =>
    intro p l hc _
    exact ⟨p, rfl, by simpa using hc⟩
  | succ k ih =>
    intro p l hc hk
    cases l with
    | nil => simp at hk
    | cons c rest =>
      obtain ⟨hp, nx, hget, hrest⟩ := hc
      subst hp
      obtain ⟨q, hadv, hq⟩ := ih nx rest hrest (by simpa using hk)
      refine ⟨q, ?_, by simpa using hq⟩
      simp only [TIterator.advance, TIterator.incr, hget]
      exact hadv

/-! ## Further claims: iterators, invariants, termination -/

/-- C11 (iterator preconditions): `operator*` and `operator++` stop at their
assertion if and only if the iterator is in the end state (`Cur` null, as for a
default-constructed iterator or one advanced past the last node); on an
iterator that references a node, `operator*` returns that node's value and
`operator++` moves the iterator to that node's `Next`, which is the end state
after the last node. -/
theorem C11_iterator_preconditions {T : Type} (h : Heap T) (it : TIterator) :
    ((∃ e, it.deref h = .assertFailed e) ↔ it.Cur = none) ∧
    ((∃ e, it.incr h = .assertFailed e) ↔ it.Cur = none) ∧
    (∀ (a : Nat) (node : TNode T), it.Cur = some a → h[a]? = some node →
      it.deref h = .done it node.Value ∧ it.incr h = .done { Cur := node.Next } () ∧
      (node.Next = none →
        TIterator.deref h { Cur := node.Next } = .assertFailed { Cur := none } ∧
        TIterator.incr h { Cur := node.Next } = .assertFailed { Cur := none })) ∧
    (TIterator.deref h { Cur := none } = .assertFailed { Cur := none } ∧
      TIterator.incr h { Cur := none } = .assertFailed { Cur := none }) := by
  refine ⟨⟨?_, ?_⟩, ⟨?_, ?_⟩, ?_, rfl, rfl⟩
  · rintro ⟨e, he⟩
    cases hc : it.Cur with
    | none => rfl
    | some a =>
      simp only [TIterator.deref, hc] at he
      cases hg : h[a]? with
      | none => rw [hg] at he; cases he
      | some node => rw [hg] at he; cases he
  · intro hc
    exact ⟨it, by simp [TIterator.deref, hc]⟩
  · rintro ⟨e, he⟩
    cases hc : it.Cur with
    | none => rfl
    | some a =>
      simp only [TIterator.incr, hc] at he
      cases hg : h[a]? with
      | none => rw [hg] at he; cases he
      | some node => rw [hg] at he; cases he
  · intro hc
    exact ⟨it, by simp [TIterator.incr, hc]⟩
  · intro a node hc hg
    refine ⟨by simp [TIterator.deref, hc, hg], by simp [TIterator.incr, hc, hg], ?_⟩
    intro hn
    rw [hn]
    exact ⟨rfl, rfl⟩

/-- C12 (iterator comparison is node identity): `a != b` is false exactly
when both iterators are in the end state or both reference the same node, and
true otherwise; in particular two iterators at different nodes compare unequal
even when the nodes hold equal values, and `begin() != end()` is false exactly
when `Root` is null. -/
theorem C12_iterator_ne_is_identity (a b : TIterator) :
    (a.ne b = false ↔
      (a.Cur = none ∧ b.Cur = none) ∨ ∃ n, a.Cur = some n ∧ b.Cur = some n) ∧
    (a.ne b = true ↔
      ¬ ((a.Cur = none ∧ b.Cur = none) ∨ ∃ n, a.Cur = some n ∧ b.Cur = some n)) ∧
    (∀ (T : Type) (h : Heap T) (n m : Nat) (x y : TNode T),
      h[n]? = some x → h[m]? = some y → x.Value = y.Value → n ≠ m →
      TIterator.ne { Cur := some n } { Cur := some m } = true) ∧
    (∀ (T : Type) (s : TForwardList T), s.begin.ne s.end_ = false ↔ s.Root = none) := by
  have key : a.ne b = false ↔
      (a.Cur = none ∧ b.Cur = none) ∨ ∃ n, a.Cur = some n ∧ b.Cur = some n := by
    cases a with
    | mk ca =>
      cases b with
      | mk cb =>
        cases ca with
        | none => cases cb <;> simp [TIterator.ne]
        | some x =>
          cases cb with
          | none => simp [TIterator.ne]
          | some y =>
            simp only [TIterator.ne, bne_eq_false_iff_eq, Option.some.injEq, false_and,
              exists_eq_left', false_or, reduceCtorEq]
            exact eq_comm
  refine ⟨key, ?_, ?_, ?_⟩
  · rw [← key]
    cases a.ne b <;> simp
  · intro T h n m x y _ _ _ hnm
    simp [TIterator.ne, hnm]
  · intro T s
    cases hr : s.Root <;> simp [TIterator.ne, TForwardList.begin, TForwardList.end_, hr]

theorem IsChain.next_ne_none {T : Type} {h : Heap T} {p : Option Nat} {l : List (Nat × T)}
    (hc : IsChain h p l) : ∀ d ∈ l.dropLast, ∃ a, h[d.1]? = some ⟨some a, d.2⟩ := by
  induction l generalizing p with
  | nil => intro d hd; simp at hd
  | cons c rest ih =>
    obtain ⟨_, nx, hget, hrest⟩ := hc
    cases rest with
    | nil => intro d hd; simp at hd
    | cons e r2 =>
      intro d hd
      rw [List.dropLast_cons₂] at hd
      rcases List.mem_cons.1 hd with rfl | hd
      · have hnx : nx = some e.1 := hrest.1
        rw [hnx] at hget
        exact ⟨e.1, hget⟩
      · exact ih hrest d hd

/-- C13 (empty list observation): a newly constructed list has `Root` and
`Last` null, `Length = 0`, `Size() = 0`, `begin()` equal to `end()` and yields
the empty sequence; in every reachable state, if `begin()` equals `end()` then
`Size() = 0`, and conversely if `Size() = 0` then `begin()` equals `end()`
(for a list of fewer than `2 ^ 64` elements, the range of the `size_t` count). -/
theorem C13_empty_list_observation {T : Type} :
    ((TForwardList.empty T).Root = none ∧ (TForwardList.empty T).Last = none ∧
      (TForwardList.empty T).Length = 0 ∧ (TForwardList.empty T).Size = 0 ∧
      (TForwardList.empty T).begin.ne (TForwardList.empty T).end_ = false ∧
      ∀ fuel, 0 < fuel →
        (TForwardList.empty T).iterate fuel = .done (TForwardList.empty T).end_ []) ∧
    (∀ s : TForwardList T, Reachable s →
      (s.begin.ne s.end_ = false → s.Size = 0) ∧
      ∀ (fuel : Nat) (e : TIterator) (xs : List T), s.iterate fuel = .done e xs →
        (s.begin.ne s.end_ = false ↔ xs = []) ∧
        (xs.length < SIZE_MOD → (s.begin.ne s.end_ = false ↔ s.Size = 0))) := by
  refine ⟨⟨rfl, rfl, rfl, rfl, rfl, ?_⟩, ?_⟩
  · intro fuel hf
    exact (Inv.empty T).iterate fuel hf
  · intro s hr
    have hne : s.begin.ne s.end_ = false ↔ s.Root = none := by
      cases hroot : s.Root <;>
        simp [TIterator.ne, TForwardList.begin, TForwardList.end_, hroot]
    have hnil : ∀ l : List (Nat × T), Inv s l → (s.Root = none ↔ l = []) := by
      intro l hinv
      cases l with
      | nil => exact ⟨fun _ => rfl, fun _ => hinv.chain⟩
      | cons c rest =>
        constructor
        · intro h0
          have := hinv.chain.1
          rw [h0] at this
          cases this
        · intro h0
          cases h0
    constructor
    · intro hb
      obtain ⟨l, hinv⟩ := hr.inv
      have hl := (hnil l hinv).1 (hne.1 hb)
      subst hl
      exact hinv.len
    · intro fuel e xs hit
      obtain ⟨l, hinv, hmap⟩ := hr.chain_of_iterate hit
      have hlen : l.length = xs.length := by rw [← hmap, List.length_map]
      have hxs : xs = [] ↔ l = [] := by
        rw [← List.length_eq_zero, ← hlen, List.length_eq_zero]
      refine ⟨by rw [hne, hnil l hinv, hxs], ?_⟩
      intro hsz
      rw [hne, hnil l hinv, TForwardList.Size, hinv.len, hlen, Nat.mod_eq_of_lt hsz,
        ← hlen, List.length_eq_zero]

/-- C15 (emptiness invariant), evaluated where the code departs from it:
after `PushBack(7)` and `PopFront()` on a new list, `Root` is null and
`Length` is 0 but `Last` still refers to the removed node. -/
theorem C15_stale_tail_after_last_pop :
    run 0 [.PushBack 7, .PopFront] (TForwardList.empty Int) = .done exampleEmptied () ∧
    exampleEmptied.Root = none ∧ exampleEmptied.Size = 0 ∧
    exampleEmptied.Last = some 0 ∧ exampleEmptied.Last ≠ none ∧
    ¬ (exampleEmptied.Root = none ↔ exampleEmptied.Last = none) := by
  refine ⟨rfl, rfl, rfl, rfl, by decide, by decide⟩

/-- C16 (tail invariant): in every reachable state, whenever the list is
non-empty `Last` refers to the last node of the chain from `Root`, which is the
only node of that chain whose `Next` is null; and whenever `Last` is not null
the node it refers to has a null `Next`. -/
theorem C16_tail_invariant {T : Type} (s : TForwardList T) (hr : Reachable s) :
    (s.Root ≠ none →
      ∃ (l : List (Nat × T)) (c : Nat × T),
        IsChain s.heap s.Root l ∧ l.getLast? = some c ∧ s.Last = some c.1 ∧
        s.heap[c.1]? = some ⟨none, c.2⟩ ∧
        ∀ d ∈ l, ∀ v, s.heap[d.1]? = some ⟨none, v⟩ → d = c) ∧
    (∀ a, s.Last = some a → ∃ node, s.heap[a]? = some node ∧ node.Next = none) := by
  constructor
  · intro hne
    obtain ⟨l, hinv⟩ := hr.inv
    rcases List.eq_nil_or_concat l with h0 | ⟨init, c, h1⟩
    · subst h0
      exact absurd hinv.chain hne
    · rw [List.concat_eq_append] at h1
      subst h1
      refine ⟨init ++ [c], c, hinv.chain, by simp, ?_, hinv.chain.last_next, ?_⟩
      · rw [hinv.last (by simp)]; simp
      · intro d hd v hv
        rcases List.mem_append.1 hd with hd | hd
        · obtain ⟨a, ha⟩ := hinv.chain.next_ne_none d (by simpa using hd)
          rw [ha] at hv
          cases hv
        · simpa using hd
  · intro a ha
    obtain ⟨v, hv⟩ := hr.last_next_null a ha
    exact ⟨_, hv, rfl⟩

/-- C17 (chain invariant): in every reachable state the `Next` links from
`Root` form a finite chain `l` of pairwise distinct nodes ending in null, the
count is the number of nodes of the chain (as a `size_t`: exactly that number
when it is below `2 ^ 64`), and an iterator obtained from `begin()` can be
advanced `k` times for every `k` up to the number of nodes, comparing equal to
`end()` after exactly that many advances and not before. -/
theorem C17_chain_invariant {T : Type} (s : TForwardList T) (hr : Reachable s) :
    ∃ l : List (Nat × T),
      IsChain s.heap s.Root l ∧ (l.map Prod.fst).Nodup ∧
      s.Length = l.length % SIZE_MOD ∧
      (l.length < SIZE_MOD → s.Size = l.length) ∧
      ∀ k, k ≤ l.length →
        ∃ it : TIterator, TIterator.advance s.heap k s.begin = .done it () ∧
          (it.ne s.end_ = false ↔ k = l.length) := by
  obtain ⟨l, hinv⟩ := hr.inv
  refine ⟨l, hinv.chain, hinv.nodup, hinv.len, ?_, ?_⟩
  · intro hsz
    rw [TForwardList.Size, hinv.len, Nat.mod_eq_of_lt hsz]
  · intro k hk
    obtain ⟨q, hadv, hq⟩ := advance_chain k s.Root l hinv.chain hk
    refine ⟨{ Cur := q }, hadv, ?_⟩
    have hne : TIterator.ne { Cur := q } s.end_ = false ↔ q = none := by
      cases q <;> simp [TIterator.ne, TForwardList.end_]
    rw [hne]
    cases hd : l.drop k with
    | nil =>
      rw [hd] at hq
      have hq0 : q = none := hq
      have hle : l.length ≤ k := List.drop_eq_nil_iff.1 hd
      exact ⟨fun _ => by omega, fun _ => hq0⟩
    | cons c rest =>
      rw [hd] at hq
      have hq1 : q = some c.1 := hq.1
      have hlt : k < l.length := by
        by_contra hge
        have : l.drop k = [] := List.drop_eq_nil_iff.2 (by omega)
        rw [this] at hd
        cases hd
      constructor
      · intro h0
        rw [h0] at hq1
        cases hq1
      · intro h0
        omega

/-- C18 (Reverse terminates): in every reachable state whose iteration yields
`n` elements, `Reverse` returns; counting one unit of fuel per loop iteration,
it returns exactly when the fuel is at least `n - 1`: for `n ≤ 1` it returns
with no fuel at all (before the loop), for `n ≥ 2` it returns with `n - 1`
units and not with `n - 2`.  An iteration of the loop leaves the loop exactly
when the saved reference `nn` is null, and goes on with `nn` otherwise. -/
theorem C18_reverse_terminates {T : Type} (s : TForwardList T) (hr : Reachable s)
    (fuel0 : Nat) (e : TIterator) (xs : List T) (hit : s.iterate fuel0 = .done e xs) :
    (∃ s1 : TForwardList T,
      (∀ fuel, s.Reverse fuel = if xs.length - 1 ≤ fuel then .done s1 () else .diverged) ∧
      (xs.length ≤ 1 → s.Reverse 0 = .done s1 ()) ∧
      (2 ≤ xs.length →
        s.Reverse (xs.length - 1) = .done s1 () ∧ s.Reverse (xs.length - 2) = .diverged)) ∧
    (∀ (t : TForwardList T) (n : Nat) (nn : Option Nat),
      TForwardList.ReverseLoop 0 t n nn = .diverged) ∧
    (∀ (fuel : Nat) (t : TForwardList T) (n : Nat) (node : TNode T),
      t.heap[n]? = some node →
      TForwardList.ReverseLoop (fuel + 1) t n none =
        .done { t with heap := t.heap.set n { node with Next := t.Root },
                       Root := some n } ()) ∧
    (∀ (fuel : Nat) (t : TForwardList T) (n m : Nat) (node mnode : TNode T),
      t.heap[n]? = some node →
      (t.heap.set n { node with Next := t.Root })[m]? = some mnode →
      TForwardList.ReverseLoop (fuel + 1) t n (some m) =
        TForwardList.ReverseLoop fuel
          { t with heap := t.heap.set n { node with Next := t.Root }, Root := some n }
          m mnode.Next) := by
  refine ⟨?_, fun _ _ _ => rfl, ?_, ?_⟩
  · obtain ⟨l, hinv, hmap⟩ := hr.chain_of_iterate hit
    have hlen : l.length = xs.length := by rw [← hmap, List.length_map]
    obtain ⟨s1, _, _, _, _, _, _, hrun⟩ := Reverse_spec hinv
    have hrun2 : ∀ fuel,
        s.Reverse fuel = if xs.length - 1 ≤ fuel then .done s1 () else .diverged := by
      intro fuel
      rw [hrun fuel, hlen]
      by_cases hf : xs.length ≤ fuel + 1
      · rw [if_pos hf, if_pos (by omega)]
      · rw [if_neg hf, if_neg (by omega)]
    refine ⟨s1, hrun2, ?_, ?_⟩
    · intro h1
      rw [hrun2 0, if_pos (by omega)]
    · intro h2
      constructor
      · rw [hrun2, if_pos (le_refl _)]
      · rw [hrun2, if_neg (by omega)]
  · intro fuel t n node hget
    simp only [TForwardList.ReverseLoop, hget]
  · intro fuel t n m node mnode hget hgetm
    simp only [TForwardList.ReverseLoop, hget, hgetm]

theorem ReverseLoopLog_forget {T : Type} (fuel : Nat) :
    ∀ (s : TForwardList T) (n : Nat) (nn : Option Nat) (log : List Nat),
      (TForwardList.ReverseLoopLog fuel s n nn log).forget =
        TForwardList.ReverseLoop fuel s n nn := by
  induction fuel with
  | zero => intro s n nn log; rfl
  | succ k ih =>
    intro s n nn log
    simp only [TForwardList.ReverseLoopLog, TForwardList.ReverseLoop]
    cases hn : s.heap[n]? with
    | none => rfl
    | some nnode =>
      cases nn with
      | none => rfl
      | some m =>
        simp only
        cases hm : (s.heap.set n { nnode with Next := s.Root })[m]? with
        | none => rfl
        | some mnode => exact ih _ _ _ _

theorem ReverseLog_forget {T : Type} (fuel : Nat) (s : TForwardList T) :
    (s.ReverseLog fuel).forget = s.Reverse fuel := by
  simp only [TForwardList.ReverseLog, TForwardList.Reverse]
  cases hr : s.Root with
  | none => rfl
  | some r =>
    simp only
    cases hg : s.heap[r]? with
    | none => rfl
    | some rnode =>
      simp only
      cases hnx : rnode.Next with
      | none => rfl
      | some n =>
        simp only
        cases hgn : s.heap[n]? with
        | none => rfl
        | some nnode => exact ReverseLoopLog_forget fuel _ _ _ _

theorem ReverseLoopLog_log {T : Type} (R : List (Nat × T)) :
    ∀ (s : TForwardList T) (n : Nat) (node : TNode T) (nn : Option Nat) (log : List Nat),
      s.heap[n]? = some node →
      IsChain s.heap nn R →
      n ∉ R.map Prod.fst →
      (R.map Prod.fst).Nodup →
      ∀ (fuel : Nat) (s1 : TForwardList T) (w : List Nat),
        TForwardList.ReverseLoopLog fuel s n nn log = .done s1 w →
        w = log ++ n :: R.map Prod.fst := by
  induction R with
  | nil =>
    intro s n node nn log hget hR _ _ fuel s1 w hrun
    have hnn : nn = none := hR
    subst hnn
    cases fuel with
    | zero => simp [TForwardList.ReverseLoopLog] at hrun
    | succ k =>
      simp only [TForwardList.ReverseLoopLog, hget] at hrun
      cases hrun
      simp
  | cons c R1 ih =>
    intro s n node nn log hget hR hnR hnd fuel s1 w hrun
    obtain ⟨hnn, nx, hgetc, hR1⟩ := hR
    subst hnn
    simp only [List.map_cons, List.mem_cons, not_or] at hnR
    simp only [List.map_cons, List.nodup_cons] at hnd
    have hgetc1 : (s.heap.set n { node with Next := s.Root })[c.1]? = some ⟨nx, c.2⟩ := by
      rw [List.getElem?_set_ne hnR.1]; exact hgetc
    cases fuel with
    | zero => simp [TForwardList.ReverseLoopLog] at hrun
    | succ k =>
      simp only [TForwardList.ReverseLoopLog, hget, hgetc1] at hrun
      have := ih _ c.1 ⟨nx, c.2⟩ nx (log ++ [n]) hgetc1 (hR1.frame_set n _ hnR.2)
        hnd.1 hnd.2 k s1 w hrun
      rw [this]
      simp

theorem ReverseLog_log {T : Type} {s : TForwardList T} {l : List (Nat × T)} (hinv : Inv s l)
    (fuel : Nat) (s1 : TForwardList T) (w : List Nat)
    (hrun : s.ReverseLog fuel = .done s1 w) :
    (l.length ≤ 1 → w = []) ∧ (2 ≤ l.length → w = l.map Prod.fst) := by
  obtain ⟨hch, hnd, _, _⟩ := hinv
  match l, hch, hnd with
  | [], hch, _ =>
    have hroot : s.Root = none := hch
    simp only [TForwardList.ReverseLog, hroot] at hrun
    cases hrun
    exact ⟨fun _ => rfl, fun h2 => by simp at h2⟩
  | [c], hch, _ =>
    obtain ⟨hroot, nx, hget, hrest⟩ := hch
    have hnx : nx = none := hrest
    subst hnx
    simp only [TForwardList.ReverseLog, hroot, hget] at hrun
    cases hrun
    exact ⟨fun _ => rfl, fun h2 => by simp at h2⟩
  | c :: d :: R, hch, hnd =>
    obtain ⟨hroot, nx, hget, hrest⟩ := hch
    obtain ⟨hnx, nn, hgetd, hR⟩ := hrest
    subst hnx
    simp only [List.map_cons, List.nodup_cons, List.mem_cons, not_or] at hnd
    obtain ⟨⟨hcd, hcR⟩, hdR, hRnd⟩ := hnd
    have hgetd1 : (s.heap.set c.1 ⟨none, c.2⟩)[d.1]? = some ⟨nn, d.2⟩ := by
      rw [List.getElem?_set_ne hcd]; exact hgetd
    simp only [TForwardList.ReverseLog, hroot, hget, hgetd] at hrun
    have := ReverseLoopLog_log R _ d.1 ⟨nn, d.2⟩ nn [c.1] hgetd1 (hR.frame_set c.1 _ hcR)
      hdR hRnd fuel s1 w hrun
    refine ⟨fun h1 => by simp at h1, fun _ => ?_⟩
    rw [this]
    simp

/-- C19 as stated fails on a list of one node: `Reverse` returns at its guard
`!Root->Next` and assigns no `Next` link, so the `Next` link of the only node
of the chain (address 0) is written zero times, not once. -/
theorem C19_single_node_not_written :
    Reachable example1 ∧
    IsChain example1.heap example1.Root [(0, 7)] ∧
    (∀ fuel, example1.ReverseLog fuel = .done example1 []) ∧
    (∀ fuel, example1.Reverse fuel = .done example1 ()) ∧
    ¬ (∀ d ∈ [((0 : Nat), (7 : Int))], ([] : List Nat).count d.1 = 1) := by
  refine ⟨example1_reachable, ⟨rfl, none, rfl, rfl⟩, fun _ => rfl, fun _ => rfl, ?_⟩
  intro h
  have := h (0, 7) (List.mem_cons_self _ _)
  simp at this

/-- C19 (link writes during reversal), amended: in every reachable state whose
chain has at least two nodes, one call of `Reverse` assigns the `Next` link of
every node of the chain exactly once (in chain order, and of no other node);
on a chain of fewer than two nodes it assigns no link.  The logged call ends
in the same state as `Reverse`, and the value held at every address is
unchanged. -/
theorem C19_reverse_link_writes {T : Type} (s : TForwardList T) (hr : Reachable s) :
    ∃ (l : List (Nat × T)) (s1 : TForwardList T),
      IsChain s.heap s.Root l ∧
      (∀ fuel, l.length ≤ fuel + 1 →
        s.Reverse fuel = .done s1 () ∧
        ∃ w : List Nat, s.ReverseLog fuel = .done s1 w ∧
          (2 ≤ l.length → w = l.map Prod.fst ∧ ∀ d ∈ l, w.count d.1 = 1) ∧
          (l.length ≤ 1 → w = [])) ∧
      (∀ a : Nat, s1.heap[a]?.map TNode.Value = s.heap[a]?.map TNode.Value) := by
  obtain ⟨l, hinv⟩ := hr.inv
  obtain ⟨s1, _, _, hval, _, _, _, hrun⟩ := Reverse_spec hinv
  refine ⟨l, s1, hinv.chain, ?_, ?_⟩
  · intro fuel hf
    have hrev : s.Reverse fuel = .done s1 () := by rw [hrun fuel, if_pos hf]
    refine ⟨hrev, ?_⟩
    have hforget := ReverseLog_forget fuel s
    rw [hrev] at hforget
    cases hlog : s.ReverseLog fuel with
    | done s2 w =>
      rw [hlog] at hforget
      simp only [Outcome.forget, Outcome.done.injEq, and_true] at hforget
      subst hforget
      obtain ⟨h1, h2⟩ := ReverseLog_log hinv fuel s2 w hlog
      refine ⟨w, rfl, ?_, h1⟩
      intro hl
      have hw := h2 hl
      refine ⟨hw, ?_⟩
      intro d hd
      rw [hw]
      exact List.count_eq_one_of_mem hinv.nodup (List.mem_map_of_mem _ hd)
    | assertFailed e => rw [hlog] at hforget; simp [Outcome.forget] at hforget
    | fault => rw [hlog] at hforget; simp [Outcome.forget] at hforget
    | diverged => rw [hlog] at hforget; simp [Outcome.forget] at hforget
  · intro a
    rw [← List.getElem?_map, ← List.getElem?_map, hval]

theorem sameUpToStaleLast_self {T : Type} (s : TForwardList T) : SameUpToStaleLast s s :=
  ⟨rfl, rfl, rfl, fun _ => rfl⟩

theorem sameOutcome_self {T : Type} (o : Outcome (TForwardList T) Unit) : SameOutcome o o := by
  cases o with
  | done s u => exact sameUpToStaleLast_self s
  | assertFailed s => exact sameUpToStaleLast_self s
  | fault => exact True.intro
  | diverged => exact True.intro

theorem Op.apply_same {T : Type} (fuel : Nat) (op : Op T) (s t : TForwardList T)
    (h : SameUpToStaleLast s t) : SameOutcome (op.apply fuel s) (op.apply fuel t) := by
  obtain ⟨hheap, hroot, hlen, hlast⟩ := h
  cases s with
  | mk heap Root Last Length =>
    cases t with
    | mk heap2 Root2 Last2 Length2 =>
      simp only at hheap hroot hlen hlast
      subst hheap hroot hlen
      cases Root with
      | none =>
        cases op with
        | PushBack v => exact sameUpToStaleLast_self _
        | PopFront => exact ⟨rfl, rfl, rfl, fun hne => absurd rfl hne⟩
        | Reverse => exact sameUpToStaleLast_self _
      | some r =>
        have hl : Last = Last2 := hlast (by simp)
        subst hl
        exact sameOutcome_self _

theorem run_same {T : Type} (fuel : Nat) (ops : List (Op T)) :
    ∀ (s t : TForwardList T), SameUpToStaleLast s t →
      SameOutcome (run fuel ops s) (run fuel ops t) := by
  induction ops with
  | nil => intro s t h; exact h
  | cons op ops ih =>
    intro s t h
    have hop := Op.apply_same fuel op s t h
    simp only [run]
    cases hs : op.apply fuel s with
    | done s1 u =>
      cases ht : op.apply fuel t with
      | done t1 u2 =>
        rw [hs, ht] at hop
        exact ih s1 t1 hop
      | assertFailed e => rw [hs, ht] at hop; exact hop.elim
      | fault => rw [hs, ht] at hop; exact hop.elim
      | diverged => rw [hs, ht] at hop; exact hop.elim
    | assertFailed e =>
      cases ht : op.apply fuel t with
      | done t1 u2 => rw [hs, ht] at hop; exact hop.elim
      | assertFailed e2 => rw [hs, ht] at hop; exact hop
      | fault => rw [hs, ht] at hop; exact hop.elim
      | diverged => rw [hs, ht] at hop; exact hop.elim
    | fault =>
      cases ht : op.apply fuel t with
      | done t1 u2 => rw [hs, ht] at hop; exact hop.elim
      | assertFailed e2 => rw [hs, ht] at hop; exact hop.elim
      | fault => exact True.intro
      | diverged => rw [hs, ht] at hop; exact hop.elim
    | diverged =>
      cases ht : op.apply fuel t with
      | done t1 u2 => rw [hs, ht] at hop; exact hop.elim
      | assertFailed e2 => rw [hs, ht] at hop; exact hop.elim
      | fault => rw [hs, ht] at hop; exact hop.elim
      | diverged => exact True.intro

/-- C20 (the cached tail of an empty list is unobservable): for any two list
states with `Root` null, `Length = 0` and the same heap, whatever their `Last`
references are, every finite sequence of `PushBack`, `PopFront` and `Reverse`
calls ends the same way on both: it stops at a failed assertion on one exactly
when it does on the other, it returns on one exactly when it does on the
other, and then `Size()`, `Root`, the heap and the iterated sequence agree. -/
theorem C20_stale_tail_unobservable {T : Type} (s t : TForwardList T)
    (hs : s.Root = none) (ht : t.Root = none) (hsl : s.Length = 0) (htl : t.Length = 0)
    (hheap : s.heap = t.heap) (fuel : Nat) (ops : List (Op T)) :
    SameOutcome (run fuel ops s) (run fuel ops t) ∧
    ((∃ e, run fuel ops s = .assertFailed e) ↔ (∃ e, run fuel ops t = .assertFailed e)) ∧
    ((∃ s1, run fuel ops s = .done s1 ()) ↔ (∃ t1, run fuel ops t = .done t1 ())) ∧
    (∀ s1 t1, run fuel ops s = .done s1 () → run fuel ops t = .done t1 () →
      s1.Size = t1.Size ∧ s1.Root = t1.Root ∧ s1.heap = t1.heap ∧
      ∀ f, s1.iterate f = t1.iterate f) := by
  have hsame : SameUpToStaleLast s t :=
    ⟨hheap, by rw [hs, ht], by rw [hsl, htl], fun hne => absurd hs hne⟩
  have hrun := run_same fuel ops s t hsame
  refine ⟨hrun, ?_, ?_, ?_⟩
  · cases h1 : run fuel ops s <;> cases h2 : run fuel ops t <;>
      rw [h1, h2] at hrun <;> first | exact hrun.elim | simp
  · cases h1 : run fuel ops s <;> cases h2 : run fuel ops t <;>
      rw [h1, h2] at hrun <;> first | exact hrun.elim | simp
  · intro s1 t1 h1 h2
    rw [h1, h2] at hrun
    obtain ⟨hh, hr, hl, _⟩ := hrun
    refine ⟨hl, hr, hh, ?_⟩
    intro f
    simp only [TForwardList.iterate, TForwardList.begin, TForwardList.end_, hh, hr]

/-! ## The further claims at concrete inputs -/

theorem C16_tail_invariant_witness :
    (example5Reversed.Root ≠ none →
      ∃ (l : List (Nat × Int)) (c : Nat × Int),
        IsChain example5Reversed.heap example5Reversed.Root l ∧ l.getLast? = some c ∧
        example5Reversed.Last = some c.1 ∧
        example5Reversed.heap[c.1]? = some ⟨none, c.2⟩ ∧
        ∀ d ∈ l, ∀ v, example5Reversed.heap[d.1]? = some ⟨none, v⟩ → d = c) ∧
    (∀ a, exampleEmptied.Last = some a →
      ∃ node, exampleEmptied.heap[a]? = some node ∧ node.Next = none) :=
  ⟨(C16_tail_invariant example5Reversed example5Reversed_reachable).1,
    (C16_tail_invariant exampleEmptied exampleEmptied_reachable).2⟩

theorem C17_chain_invariant_witness :
    ∃ l : List (Nat × Int),
      IsChain example5.heap example5.Root l ∧ (l.map Prod.fst).Nodup ∧
      example5.Length = l.length % SIZE_MOD ∧
      (l.length < SIZE_MOD → example5.Size = l.length) ∧
      ∀ k, k ≤ l.length →
        ∃ it : TIterator, TIterator.advance example5.heap k example5.begin = .done it () ∧
          (it.ne example5.end_ = false ↔ k = l.length) :=
  C17_chain_invariant example5 example5_reachable

theorem C18_reverse_terminates_witness :
    ∃ s1 : TForwardList Int,
      (∀ fuel, example5.Reverse fuel = if 5 - 1 ≤ fuel then .done s1 () else .diverged) ∧
      (5 ≤ 1 → example5.Reverse 0 = .done s1 ()) ∧
      (2 ≤ 5 → example5.Reverse (5 - 1) = .done s1 () ∧
        example5.Reverse (5 - 2) = .diverged) :=
  (C18_reverse_terminates example5 example5_reachable 6 { Cur := none } [3, 1, 4, 1, 5] rfl).1

theorem C19_reverse_link_writes_witness :
    ∃ (l : List (Nat × Int)) (s1 : TForwardList Int),
      IsChain example5.heap example5.Root l ∧
      (∀ fuel, l.length ≤ fuel + 1 →
        example5.Reverse fuel = .done s1 () ∧
        ∃ w : List Nat, example5.ReverseLog fuel = .done s1 w ∧
          (2 ≤ l.length → w = l.map Prod.fst ∧ ∀ d ∈ l, w.count d.1 = 1) ∧
          (l.length ≤ 1 → w = [])) ∧
      (∀ a : Nat, s1.heap[a]?.map TNode.Value = example5.heap[a]?.map TNode.Value) :=
  C19_reverse_link_writes example5 example5_reachable

theorem C20_stale_tail_unobservable_witness :
    exampleEmptied.Last ≠ exampleEmptiedReset.Last ∧
    SameOutcome (run 3 exampleOps exampleEmptied) (run 3 exampleOps exampleEmptiedReset) ∧
    ((∃ e, run 3 exampleOps exampleEmptied = .assertFailed e) ↔
      (∃ e, run 3 exampleOps exampleEmptiedReset = .assertFailed e)) ∧
    ((∃ s1, run 3 exampleOps exampleEmptied = .done s1 ()) ↔
      (∃ t1, run 3 exampleOps exampleEmptiedReset = .done t1 ())) ∧
    (∀ s1 t1, run 3 exampleOps exampleEmptied = .done s1 () →
      run 3 exampleOps exampleEmptiedReset = .done t1 () →
      s1.Size = t1.Size ∧ s1.Root = t1.Root ∧ s1.heap = t1.heap ∧
      ∀ f, s1.iterate f = t1.iterate f) :=
  ⟨by decide,
    C20_stale_tail_unobservable exampleEmptied exampleEmptiedReset rfl rfl rfl rfl rfl 3
      exampleOps⟩

end ReverseList
